import Mathlib

/-!
# Verification of `lastpass2keepass.py`

A shallow embedding of the LastPass-to-KeePassXML converter
(`src/lastpass2keepass.py`, Python 2) together with proofs about it.

Modelling conventions:
* Python 2 `str` values are modelled as Lean `String` / `List Char`
  (one character per byte; the inputs of interest are ASCII).
  `str.decode("utf-8")` is modelled as the identity at the text level.
* `datetime.datetime.now().strftime(...)` is an external input that the
  program samples once per `add_entry` call; it is modelled as a stream
  `clock : Nat → String` consumed at the entry's global call index.
* Fallible operations (`list[i]` on a short list, `list.pop(0)` on an
  empty list, `csv.Error`) are modelled with `Except PyErr`.
* File handles and `sys.exit` are modelled by an explicit file-system
  map and an `Outcome` value in `pyMain`.
-/

namespace LP2K

/-- A parsed CSV row: the positional list of field strings. -/
abbrev Row := List String

/-- Python exceptions that the script can raise (it catches none of these). -/
inductive PyErr
  | indexError
  | csvError (msg : String)
deriving DecidableEq

/-- Python's `r[i]` on a list: the element, or an `IndexError`. -/
def getItem (r : Row) (i : Nat) : Except PyErr String :=
  match r[i]? with
  | some v => .ok v
  | none => .error .indexError

/-! ## Normalizer (`parse_and_write_temp_csv`) -/

/-- The whitespace characters stripped by Python's `str.strip()`. -/
def pySpace (c : Char) : Bool :=
  c = ' ' || c = '\t' || c = '\n' || c = '\r' || c = '\x0b' || c = '\x0c'

/-- Python's `line.strip()`: drop leading and trailing whitespace. -/
def pyStrip (s : List Char) : List Char :=
  ((s.dropWhile pySpace).reverse.dropWhile pySpace).reverse

/-- Python's `line.replace('\n', '|\t|')`: the else-branch of the normalizer loop.
The pattern is the single character `'\n'`, so each occurrence becomes the
three-character sentinel token. -/
def replaceNewlines : List Char → List Char
  | [] => []
  | c :: rest =>
    if c = '\n' then '|' :: '\t' :: '|' :: replaceNewlines rest
    else c :: replaceNewlines rest

/-- Python's `text.replace('|\t|', '\n')` from `add_entry`: Python's `str.replace`
scans left to right; at each position a match of the three-character
pattern is consumed whole, otherwise one character is emitted. -/
def restoreNewlines : List Char → List Char
  | [] => []
  | [c] => [c]
  | [c, d] => [c, d]
  | c :: d :: e :: rest =>
    if c = '|' ∧ d = '\t' ∧ e = '|' then '\n' :: restoreNewlines rest
    else c :: restoreNewlines (d :: e :: rest)

/-- Python's `str.strip('"')`: drop every leading and trailing `'"'`. -/
def pyStripQuotes (s : List Char) : List Char :=
  ((s.dropWhile (fun c => c = '"')).reverse.dropWhile (fun c => c = '"')).reverse

/-- The test `ROW_START_REGEX = re.compile('^http')` applied with `.match`. -/
def isRowStart (line : List Char) : Bool :=
  ['h', 't', 't', 'p'].isPrefixOf line

/-- The test `DELIMITER_REGEX = re.compile(',\d\n')` applied with `.search`:
some position of the line holds a comma, a decimal digit, and a newline. -/
def hasCommaDigitNL : List Char → Bool
  | a :: b :: c :: rest =>
    (a = ',' && b.isDigit && c = '\n') || hasCommaDigitNL (b :: c :: rest)
  | _ => false

/-- Python's `file.readlines()`: split the text after every `'\n'`, keeping the
newline at the end of each line; a final fragment without a newline is a
line of its own. -/
def readlinesAux (cur : List Char) : List Char → List (List Char)
  | [] => if cur = [] then [] else [cur.reverse]
  | c :: rest =>
    if c = '\n' then (cur.reverse ++ ['\n']) :: readlinesAux [] rest
    else readlinesAux (c :: cur) rest

def pyReadlines (s : List Char) : List (List Char) :=
  readlinesAux [] s

/-- The body of the normalizer loop for one raw line, in source order:
new-record lines get a leading line break and are stripped; final lines of
multi-line records are stripped and appended; interior fragments have
their newline replaced by the sentinel token. -/
def normalizeLine (line : List Char) : List Char :=
  if isRowStart line then '\n' :: pyStrip line
  else if hasCommaDigitNL line then pyStrip line
  else replaceNewlines line

/-- Model of `parse_and_write_temp_csv`: the text written to the temp file is the
concatenation of the per-line outputs. -/
def parse_and_write_temp_csv (raw : List Char) : List Char :=
  ((pyReadlines raw).map normalizeLine).flatten

/-! ## CSV reader (`csv.reader`, default dialect)

State machine ported from CPython's `_csv.c` for the default dialect:
delimiter `','`, quotechar `'"'`, doublequote on, no escapechar,
non-strict.  After the characters of each physical line the reader
processes an end-of-line marker (the `'\0'` pseudo-character of the C
code); a record is emitted whenever the state returns to `START_RECORD`.
At end of input a pending field or an open quoted field yields a final
record. -/

inductive CsvState
  | startRecord | startField | inField | inQuotedField | quoteInQuotedField | eatCrnl
deriving DecidableEq

structure CsvAcc where
  state : CsvState
  field : List Char
  fields : List String
  records : List Row

def csvAddChar (a : CsvAcc) (c : Char) : CsvAcc :=
  { a with field := a.field ++ [c] }

def csvSaveField (a : CsvAcc) : CsvAcc :=
  { a with field := [], fields := a.fields ++ [String.mk a.field] }

/-- The `START_FIELD` transitions (also reached by fallthrough from
`START_RECORD`). -/
def csvStartField (a : CsvAcc) (c : Char) : CsvAcc :=
  if c = '\n' ∨ c = '\r' then { csvSaveField a with state := .eatCrnl }
  else if c = '"' then { a with state := .inQuotedField }
  else if c = ',' then { csvSaveField a with state := .startField }
  else { csvAddChar a c with state := .inField }

/-- One character of input.  `none` is the end-of-line marker. -/
def csvStep (a : CsvAcc) : Option Char → Except PyErr CsvAcc
  | none =>
    match a.state with
    | .startRecord => .ok a
    | .startField => .ok { csvSaveField a with state := .startRecord }
    | .inField => .ok { csvSaveField a with state := .startRecord }
    | .inQuotedField => .ok a
    | .quoteInQuotedField => .ok { csvSaveField a with state := .startRecord }
    | .eatCrnl => .ok { a with state := .startRecord }
  | some c =>
    match a.state with
    | .startRecord =>
      if c = '\n' ∨ c = '\r' then .ok { a with state := .eatCrnl }
      else .ok (csvStartField { a with state := .startField } c)
    | .startField => .ok (csvStartField a c)
    | .inField =>
      if c = '\n' ∨ c = '\r' then .ok { csvSaveField a with state := .eatCrnl }
      else if c = ',' then .ok { csvSaveField a with state := .startField }
      else .ok (csvAddChar a c)
    | .inQuotedField =>
      if c = '"' then .ok { a with state := .quoteInQuotedField }
      else .ok (csvAddChar a c)
    | .quoteInQuotedField =>
      if c = '"' then .ok { csvAddChar a '"' with state := .inQuotedField }
      else if c = ',' then .ok { csvSaveField a with state := .startField }
      else if c = '\n' ∨ c = '\r' then .ok { csvSaveField a with state := .eatCrnl }
      else .ok { csvAddChar a c with state := .inField }
    | .eatCrnl =>
      if c = '\n' ∨ c = '\r' then .ok a
      else .error (.csvError "new-line character seen in unquoted field")

/-- Process one physical line, then the end-of-line marker; emit a record
if the state came back to `START_RECORD`. -/
def csvLine (a : CsvAcc) (line : List Char) : Except PyErr CsvAcc := do
  let a ← line.foldlM (fun acc c => csvStep acc (some c)) a
  let a ← csvStep a none
  if a.state = .startRecord then
    .ok { a with fields := [], records := a.records ++ [a.fields] }
  else
    .ok a

/-- End of input: a pending field or an open quoted field produces one
last record (non-strict mode). -/
def csvFinish (a : CsvAcc) : List Row :=
  if a.field ≠ [] ∨ a.state = .inQuotedField then
    a.records ++ [(csvSaveField a).fields]
  else a.records

/-- Model of `[row for row in csv.reader(output_file, delimiter=',', quotechar='"')]`. -/
def csvParse (content : List Char) : Except PyErr (List Row) := do
  let a ← (pyReadlines content).foldlM csvLine ⟨.startRecord, [], [], []⟩
  .ok (csvFinish a)

/-! ## CPython 2.7 dict (string keys)

`add_entry` builds the ten `(name, text)` pairs as a dict literal and then
iterates `dict.items()`.  On the reference interpreter — CPython 2.7,
64-bit, hash randomization off (the default) — the iteration order is the
open-addressing table's slot order, so it is fixed by the key hashes, not
by the order of the literal.  The simulation below is a direct port of
`stringobject.c`'s hash and `dictobject.c`'s probing, presizing and
resizing for a dict built by `BUILD_MAP n` followed by `STORE_MAP` per
pair (how CPython 2.7 compiles a dict literal). -/

/-- The value `2 ^ 64`, the modulus of the C `size_t` arithmetic. -/
def U64 : Nat := 18446744073709551616

/-- CPython 2.7's string hash (64-bit `long`, `_Py_HashSecret` zero),
represented as an unsigned 64-bit value.  `x = s[0] << 7`, then
`x = (1000003 * x) ^ c` over the characters, then `x ^= len`. -/
def py27StrHash (s : String) : Nat :=
  match s.data with
  | [] => 0
  | c0 :: _ =>
    let x0 := (c0.toNat * 128) % U64
    let x := s.data.foldl (fun x c => ((1000003 * x) % U64) ^^^ c.toNat) x0
    let x := x ^^^ s.data.length
    if x = U64 - 1 then U64 - 2 else x

/-- One dict table.  CPython's insertion routine stores values alongside
keys but never reads a value: probing, the fill check, resizing and
iteration depend on the keys alone.  The table is therefore modelled with
its key slots only, and `pyDictItems` below re-attaches each key's
last-assigned value. -/
structure PyDict where
  size : Nat
  slots : List (Option String)
  used : Nat
  fill : Nat

/-- CPython's `lookdict`: first probe at `hash & mask`; on collision
`i = 5*i + perturb + 1; perturb >>= 5`, all in 64-bit arithmetic, with the
slot taken from `i & mask`.  Returns the slot of the key or of the first
empty slot.  `fuel` only bounds the (in practice short) probe sequence. -/
def dictProbe (slots : List (Option String)) (size : Nat)
    (key : String) : Nat → Nat → Nat → Nat
  | _, _, 0 => 0
  | i, perturb, fuel + 1 =>
    let slot := i % size
    match slots.get? slot with
    | some none => slot
    | some (some k) =>
      if k = key then slot
      else dictProbe slots size key ((5 * i + perturb + 1) % U64) (perturb / 32) fuel
    | none => slot

def dictFindSlot (d : PyDict) (h : Nat) (key : String) : Nat :=
  dictProbe d.slots d.size key (h % d.size) h (d.size * 64 + 64)

/-- Insert without the resize check (also used when rebuilding a table). -/
def dictRawInsert (d : PyDict) (key : String) : PyDict :=
  let slot := dictFindSlot d (py27StrHash key) key
  let isNew := decide ((d.slots.getD slot none) = none)
  { d with
    slots := d.slots.set slot (some key)
    used := d.used + (if isNew then 1 else 0)
    fill := d.fill + (if isNew then 1 else 0) }

/-- The loop `newsize = PyDict_MINSIZE; while (newsize <= minused) newsize <<= 1`.
`fuel` bounds the doubling loop and is chosen large enough never to bind. -/
def dictGrow (minused : Nat) : Nat → Nat → Nat
  | newsize, 0 => newsize
  | newsize, fuel + 1 =>
    if newsize ≤ minused then dictGrow minused (newsize * 2) fuel else newsize

def dictResizeTo (minused : Nat) : Nat :=
  dictGrow minused 8 64

/-- CPython's `dictresize`: rebuild into the fresh table, re-inserting the occupied
entries of the old table in slot order. -/
def dictResize (d : PyDict) (minused : Nat) : PyDict :=
  let n := dictResizeTo minused
  let olds := d.slots.filterMap id
  olds.foldl (fun d k => dictRawInsert d k)
    { size := n, slots := List.replicate n none, used := 0, fill := 0 }

/-- CPython's `PyDict_SetItem`: insert, then resize to `4 * used` slots-in-use when a
new key pushed the fill factor to two thirds. -/
def dictSetItem (d : PyDict) (key : String) : PyDict :=
  let usedBefore := d.used
  let d := dictRawInsert d key
  if d.used > usedBefore ∧ d.fill * 3 ≥ d.size * 2 then dictResize d (4 * d.used)
  else d

/-- The table `_PyDict_NewPresized(n)` produces, as used by `BUILD_MAP n`. -/
def dictNewPresized (n : Nat) : PyDict :=
  let size := if 5 < n then dictResizeTo n else 8
  { size := size, slots := List.replicate size none, used := 0, fill := 0 }

/-- A dict literal: presized for the pair count, then the keys stored in
source order. -/
def pyDictLiteral (keys : List String) : PyDict :=
  keys.foldl (fun d k => dictSetItem d k) (dictNewPresized keys.length)

/-- The key order of `dict.items()`: occupied slots in table order. -/
def pyDictKeyOrder (keys : List String) : List String :=
  (pyDictLiteral keys).slots.filterMap id

/-- The items `dict.items()` of a dict literal returns: the keys in slot order, each paired
with its last-assigned value. -/
def pyDictItems (pairs : List (String × String)) : List (String × String) :=
  (pyDictKeyOrder (pairs.map Prod.fst)).filterMap
    (fun k => pairs.reverse.find? (fun q => q.1 = k))

/-! ## Document builder -/

/-- An ElementTree element: a tag, optional text, ordered children.
(No element in this program carries attributes.) -/
structure Element where
  tag : String
  text : Option String
  children : List Element

def leaf (tag text : String) : Element :=
  { tag := tag, text := some text, children := [] }

/-- The comment transform of `add_entry`:
`str(entry[3]).replace('|\t|', '\n').strip('"')`. -/
def commentText (f3 : String) : String :=
  String.mk (pyStripQuotes (restoreNewlines f3.data))

/-- The dict literal of `add_entry`, with the pairs in source order;
`ts` is the `formatted_current_time` sampled by this call. -/
def entryPairs (ts t u p url cm la : String) : List (String × String) :=
  [("title", t), ("username", u), ("password", p), ("url", url),
   ("comment", cm), ("icon", "0"), ("creation", ts), ("lastaccess", la),
   ("lastmod", ts), ("expire", "Never")]

/-- Model of `add_entry`: build the entry element for one row.  The values of the
dict literal are evaluated in source order (so the first missing index
raises), and the children are appended iterating `dict.items()`. -/
def add_entry (ts : String) (entry : Row) : Except PyErr Element := do
  let t ← getItem entry 4
  let u ← getItem entry 1
  let p ← getItem entry 2
  let url ← getItem entry 0
  let f3 ← getItem entry 3
  let la ← getItem entry 5
  .ok { tag := "entry", text := none,
        children := (pyDictItems (entryPairs ts t u p url (commentText f3) la)).map
          (fun q => leaf q.1 q.2) }

/-- The entries of one group, numbered by the global `add_entry` call
index that selects each entry's clock sample. -/
def addEntries (clock : Nat → String) : Nat → List Row → Except PyErr (List Element)
  | _, [] => .ok []
  | i, r :: rs => do
    let e ← add_entry (clock i) r
    let es ← addEntries clock (i + 1) rs
    .ok (e :: es)

/-- Model of `add_category`: a `group` element with `title`, `icon`, then entries. -/
def add_category (clock : Nat → String) (i : Nat) (p : String × List Row) :
    Except PyErr Element := do
  let es ← addEntries clock i p.2
  .ok { tag := "group", text := none,
        children := leaf "title" p.1 :: leaf "icon" "0" :: es }

def addCategories (clock : Nat → String) : Nat → List (String × List Row) →
    Except PyErr (List Element)
  | _, [] => .ok []
  | i, g :: gs => do
    let e ← add_category clock i g
    let es ← addCategories clock (i + g.2.length) gs
    .ok (e :: es)

/-- Model of `generate_keepass_xml_document`: the `database` root with one child
per (category, entries) pair, in order. -/
def generate_keepass_xml_document (clock : Nat → String)
    (groups : List (String × List Row)) : Except PyErr Element := do
  let gs ← addCategories clock 0 groups
  .ok { tag := "database", text := none, children := gs }

/-! ## Grouping and sorting (`sort_entries_by_category`) -/

/-- The updates `categories[category].append(entry)` and `categories[category] = [entry]`.
The mapping is modelled as an association list in first-insertion order. -/
def insertEntry (cats : List (String × List Row)) (c : String) (r : Row) :
    List (String × List Row) :=
  if cats.any (fun p => p.1 = c) then
    cats.map (fun p => if p.1 = c then (p.1, p.2 ++ [r]) else p)
  else cats ++ [(c, [r])]

/-- The grouping loop of `sort_entries_by_category`; `entry[5]` raises on
a row with fewer than six fields. -/
def groupAux : List Row → List (String × List Row) →
    Except PyErr (List (String × List Row))
  | [], acc => .ok acc
  | r :: rs, acc => do
    let c ← getItem r 5
    groupAux rs (insertEntry acc c r)

/-- Lexicographic comparison lifted to lists, as Python compares lists. -/
def lexCmp (cmp : α → α → Ordering) : List α → List α → Ordering
  | [], [] => .eq
  | [], _ :: _ => .lt
  | _ :: _, [] => .gt
  | a :: as, b :: bs =>
    match cmp a b with
    | .eq => lexCmp cmp as bs
    | o => o

/-- Python 2 `str` comparison: bytewise lexicographic. -/
def pyStrCmp (a b : String) : Ordering :=
  lexCmp (fun c d => compare c.toNat d.toNat) a.data b.data

/-- Comparison of two rows (`list` of `str`). -/
def pyRowCmp : Row → Row → Ordering :=
  lexCmp pyStrCmp

/-- Comparison of two entry lists (`list` of `list` of `str`): the sort
key `lambda x: x[1]` of `sorted`. -/
def pyRowsCmp : List Row → List Row → Ordering :=
  lexCmp pyRowCmp

/-- The ordering `sorted(..., key=lambda x: x[1])` sorts by: group `a`
may precede group `b` iff `a`'s entry list does not exceed `b`'s. -/
def pyGroupLe (a b : String × List Row) : Bool :=
  decide (pyRowsCmp a.2 b.2 ≠ .gt)

/-- Stable insertion into a sorted list: the new element goes in front of
the first element it may precede, hence after every earlier-placed tie. -/
def insertSorted (le : α → α → Bool) (a : α) : List α → List α
  | [] => [a]
  | b :: bs => if le a b then a :: b :: bs else b :: insertSorted le a bs

/-- A stable ascending sort (insertion sort, from the right): the model of
Python's `sorted`, which is specified as exactly that.  (The dict's own
iteration order upstream is immaterial: the entry lists of distinct
categories always differ, so the sorted permutation is unique.) -/
def pySorted (le : α → α → Bool) (l : List α) : List α :=
  l.foldr (insertSorted le) []

/-- Model of `sort_entries_by_category`:
`sorted(categories.items(), key=lambda x: x[1])`. -/
def sort_entries_by_category (entries : List Row) :
    Except PyErr (List (String × List Row)) := do
  let cats ← groupAux entries []
  .ok (pySorted pyGroupLe cats)

/-- Model of `read_temp_file`: parse the temp file, drop `entries[0]` (raising
`IndexError` on an empty list, as `list.pop(0)` does), group and sort. -/
def read_temp_file (content : List Char) : Except PyErr (List (String × List Row)) := do
  let entries ← csvParse content
  match entries with
  | [] => .error .indexError
  | _ :: rest => sort_entries_by_category rest

/-! ## CLI driver (`main`) -/

/-- A file's content: plain text, or the final document (the doctype line
followed by the serialized tree — serialization itself is not modelled). -/
inductive FileData
  | text (s : List Char)
  | xmlDoc (doctype : String) (root : Element)

/-- The file system: an association of paths to contents. -/
abbrev FS := List (String × FileData)

def fsRead (fs : FS) (path : String) : Option FileData :=
  match fs.find? (fun p => p.1 = path) with
  | some p => some p.2
  | none => none

def fsWrite (fs : FS) (path : String) (d : FileData) : FS :=
  if fs.any (fun p => p.1 = path) then
    fs.map (fun p => if p.1 = path then (path, d) else p)
  else fs ++ [(path, d)]

/-- How a run ends: normal completion, `sys.exit()` (which raises
`SystemExit` with code 0 when called with no argument, as
`print_and_exit` does), or an uncaught exception. -/
inductive Outcome
  | completed
  | exited (code : Nat)
  | crashed (msg : String)
deriving DecidableEq

structure RunResult where
  outcome : Outcome
  fs : FS
  stdout : List String

def HORIZ_LINE : String :=
  "____________________________________________________________\n"

def usageMessage : String :=
  "USAGE: python lastpass2keepass.py <lastpass-csv>"

def fileErrorMessage : String :=
  "You either need more permissions or the file does not exist."

/-- Model of `formatted_print`: the message framed by the horizontal rule. -/
def formattedPrint (s : String) : List String :=
  [HORIZ_LINE, s, HORIZ_LINE]

def doctypeLine : String := "<!DOCTYPE KEEPASSX_DATABASE>"

/-- The success message of `main` (its two lines flattened into one). -/
def successMessage (inp outp : String) : String :=
  "'" ++ inp ++ "' has been succesfully converted to the KeePassXML format. " ++
  "Converted data can be found in the '" ++ outp ++ "' file."

def errName : PyErr → String
  | .indexError => "IndexError"
  | .csvError m => "_csv.Error: " ++ m

/-- Model of `main`: missing argument exits via `print_and_exit` (status 0) before
touching any file; an unreadable input exits the same way; otherwise the
temp CSV is written to the output path, re-read, and overwritten with the
document.  An uncaught exception aborts after the temp write. -/
def pyMain (clock : Nat → String) (argv : List String) (fs : FS) : RunResult :=
  match argv.get? 1 with
  | none => { outcome := .exited 0, fs := fs, stdout := formattedPrint usageMessage }
  | some inputPath =>
    let outputPath := inputPath ++ ".export.xml"
    match fsRead fs inputPath with
    | some (.text content) =>
      let normalized := parse_and_write_temp_csv content
      let fs1 := fsWrite fs outputPath (.text normalized)
      match read_temp_file normalized with
      | .error e => { outcome := .crashed (errName e), fs := fs1, stdout := [] }
      | .ok groups =>
        match generate_keepass_xml_document clock groups with
        | .error e => { outcome := .crashed (errName e), fs := fs1, stdout := [] }
        | .ok root =>
          { outcome := .completed
            fs := fsWrite fs1 outputPath (.xmlDoc doctypeLine root)
            stdout := formattedPrint (successMessage inputPath outputPath) }
    | _ =>
      { outcome := .exited 0, fs := fs,
        stdout := formattedPrint ("Cannot read file: '" ++ inputPath ++
          "' Error: '" ++ fileErrorMessage ++ "'") }

/-! ## Observers used by the theorems -/

/-- The text of the first child with the given tag. -/
def childText (e : Element) (tag : String) : Option String :=
  match e.children.find? (fun c => c.tag = tag) with
  | some c => c.text
  | none => none

def childTags (e : Element) : List String :=
  e.children.map (fun c => c.tag)

/-- All `entry` elements of a document, in document order. -/
def docEntries (root : Element) : List Element :=
  (root.children.map (fun g => g.children.filter (fun c => c.tag = "entry"))).flatten

/-! ## The dict iteration order of `add_entry`, computed -/

/-- The keys of `add_entry`'s dict literal in source order. -/
def entryKeysSource : List String :=
  ["title", "username", "password", "url", "comment", "icon",
   "creation", "lastaccess", "lastmod", "expire"]

/-- The slot order those keys end up in (CPython 2.7, 64-bit). -/
def entryKeysHashOrder : List String :=
  ["username", "comment", "creation", "expire", "title", "url",
   "lastmod", "password", "lastaccess", "icon"]

theorem pyDictKeyOrder_entryKeys :
    pyDictKeyOrder entryKeysSource = entryKeysHashOrder := by decide

/-- The items of `add_entry`'s dict, for arbitrary values: the slot order
is a function of the (fixed) keys alone. -/
theorem pyDictItems_entryPairs (ts t u p url cm la : String) :
    pyDictItems (entryPairs ts t u p url cm la) =
      [("username", u), ("comment", cm), ("creation", ts), ("expire", "Never"),
       ("title", t), ("url", url), ("lastmod", ts), ("password", p),
       ("lastaccess", la), ("icon", "0")] := by
  show (pyDictKeyOrder ((entryPairs ts t u p url cm la).map Prod.fst)).filterMap _ = _
  rw [show (entryPairs ts t u p url cm la).map Prod.fst = entryKeysSource from rfl,
    pyDictKeyOrder_entryKeys]
  rfl

/-- The children of a successfully built entry element, explicitly. -/
theorem add_entry_children (ts : String) (r : Row) (e : Element)
    (h : add_entry ts r = .ok e) :
    ∃ t u p url f3 la,
      r[4]? = some t ∧ r[1]? = some u ∧ r[2]? = some p ∧
      r[0]? = some url ∧ r[3]? = some f3 ∧ r[5]? = some la ∧
      e = { tag := "entry", text := none,
            children :=
              [leaf "username" u, leaf "comment" (commentText f3),
               leaf "creation" ts, leaf "expire" "Never", leaf "title" t,
               leaf "url" url, leaf "lastmod" ts, leaf "password" p,
               leaf "lastaccess" la, leaf "icon" "0"] } := by
  unfold add_entry getItem at h
  cases h4 : r[4]? with
  | none => rw [h4] at h; simp only [Bind.bind, Except.bind] at h; exact (Except.noConfusion h)
  | some t =>
  cases h1 : r[1]? with
  | none => rw [h4, h1] at h; simp only [Bind.bind, Except.bind] at h; exact (Except.noConfusion h)
  | some u =>
  cases h2 : r[2]? with
  | none => rw [h4, h1, h2] at h; simp only [Bind.bind, Except.bind] at h; exact (Except.noConfusion h)
  | some p =>
  cases h0 : r[0]? with
  | none => rw [h4, h1, h2, h0] at h; simp only [Bind.bind, Except.bind] at h; exact (Except.noConfusion h)
  | some url =>
  cases h3 : r[3]? with
  | none => rw [h4, h1, h2, h0, h3] at h; simp only [Bind.bind, Except.bind] at h; exact (Except.noConfusion h)
  | some f3 =>
  cases h5 : r[5]? with
  | none => rw [h4, h1, h2, h0, h3, h5] at h; simp only [Bind.bind, Except.bind] at h; exact (Except.noConfusion h)
  | some la =>
    rw [h4, h1, h2, h0, h3, h5] at h
    simp only [Bind.bind, Except.bind, Except.ok.injEq] at h
    refine ⟨t, u, p, url, f3, la, rfl, rfl, rfl, rfl, rfl, rfl, ?_⟩
    rw [← h, pyDictItems_entryPairs]
    rfl

/-! ## Comparator laws -/

/-- The laws making an `Ordering`-valued comparator a linear-order test. -/
structure IsLinearCmp (cmp : α → α → Ordering) : Prop where
  eq_iff : ∀ a b, cmp a b = .eq ↔ a = b
  swap_eq : ∀ a b, (cmp a b).swap = cmp b a
  lt_trans : ∀ a b c, cmp a b = .lt → cmp b c = .lt → cmp a c = .lt

namespace IsLinearCmp

variable {cmp : α → α → Ordering}

theorem cmp_refl (h : IsLinearCmp cmp) (a : α) : cmp a a = .eq :=
  (h.eq_iff a a).mpr rfl

theorem lt_of_gt (h : IsLinearCmp cmp) {a b : α} (hab : cmp a b = .gt) :
    cmp b a = .lt := by
  have := h.swap_eq a b
  rw [hab] at this
  exact this.symm

theorem gt_of_lt (h : IsLinearCmp cmp) {a b : α} (hab : cmp a b = .lt) :
    cmp b a = .gt := by
  have := h.swap_eq a b
  rw [hab] at this
  exact this.symm

/-- The relation `cmp a b ≠ .gt` (which `sorted` orders by) is transitive. -/
theorem le_trans (h : IsLinearCmp cmp) {a b c : α}
    (hab : cmp a b ≠ .gt) (hbc : cmp b c ≠ .gt) : cmp a c ≠ .gt := by
  cases heq : cmp a b with
  | gt => exact absurd heq hab
  | eq => rw [(h.eq_iff a b).mp heq]; exact hbc
  | lt =>
    cases heq2 : cmp b c with
    | gt => exact absurd heq2 hbc
    | eq => rw [← (h.eq_iff b c).mp heq2]; rw [heq]; simp
    | lt => rw [h.lt_trans a b c heq heq2]; simp

/-- The relation `cmp a b ≠ .gt` is total. -/
theorem le_total (h : IsLinearCmp cmp) (a b : α) :
    cmp a b ≠ .gt ∨ cmp b a ≠ .gt := by
  cases heq : cmp a b with
  | gt => right; rw [h.lt_of_gt heq]; simp
  | eq => left; simp
  | lt => left; simp

/-- Comparing `≠ .gt` in both directions forces equality. -/
theorem eq_of_le_of_ge (h : IsLinearCmp cmp) {a b : α}
    (hab : cmp a b ≠ .gt) (hba : cmp b a ≠ .gt) : a = b := by
  cases heq : cmp a b with
  | gt => exact absurd heq hab
  | eq => exact (h.eq_iff a b).mp heq
  | lt => exact absurd (h.gt_of_lt heq) hba

end IsLinearCmp

/-- Lifting `lexCmp` preserves the comparator laws. -/
theorem isLinearCmp_lexCmp {cmp : α → α → Ordering} (h : IsLinearCmp cmp) :
    IsLinearCmp (lexCmp cmp) := by
  constructor
  · intro xs
    induction xs with
    | nil => intro ys; cases ys <;> simp [lexCmp]
    | cons a as ih =>
      intro ys
      cases ys with
      | nil => simp [lexCmp]
      | cons b bs =>
        simp only [lexCmp]
        cases hc : cmp a b with
        | eq =>
          have hab := (h.eq_iff a b).mp hc
          subst hab
          simp only []
          constructor
          · intro he; rw [(ih bs).mp he]
          · intro he
            cases he
            exact (ih as).mpr rfl
        | lt =>
          simp only []
          constructor
          · intro he; exact Ordering.noConfusion he
          · intro he
            cases he
            rw [h.cmp_refl a] at hc
            exact Ordering.noConfusion hc
        | gt =>
          simp only []
          constructor
          · intro he; exact Ordering.noConfusion he
          · intro he
            cases he
            rw [h.cmp_refl a] at hc
            exact Ordering.noConfusion hc
  · intro xs
    induction xs with
    | nil => intro ys; cases ys <;> simp [lexCmp, Ordering.swap]
    | cons a as ih =>
      intro ys
      cases ys with
      | nil => simp [lexCmp, Ordering.swap]
      | cons b bs =>
        simp only [lexCmp]
        cases hc : cmp a b with
        | eq =>
          have := h.swap_eq a b
          rw [hc] at this
          rw [← this]
          simpa using ih bs
        | lt =>
          have := h.swap_eq a b
          rw [hc] at this
          rw [← this]
          rfl
        | gt =>
          have := h.swap_eq a b
          rw [hc] at this
          rw [← this]
          rfl
  · intro xs
    induction xs with
    | nil =>
      intro ys zs hab hbc
      cases ys with
      | nil => exact hbc
      | cons b bs => cases zs with
        | nil => exact absurd hbc (by simp [lexCmp])
        | cons c cs => simp [lexCmp]
    | cons a as ih =>
      intro ys zs hab hbc
      cases ys with
      | nil => exact absurd hab (by simp [lexCmp])
      | cons b bs =>
        cases zs with
        | nil => exact absurd hbc (by simp [lexCmp])
        | cons c cs =>
          simp only [lexCmp] at hab hbc ⊢
          cases hc1 : cmp a b with
          | gt => rw [hc1] at hab; exact absurd hab (by simp)
          | eq =>
            have := (h.eq_iff a b).mp hc1
            subst this
            rw [hc1] at hab
            cases hc2 : cmp a c with
            | gt =>
              rw [hc2] at hbc; exact absurd hbc (by simp)
            | eq =>
              rw [hc2] at hbc
              rw [ih bs cs hab hbc]
            | lt => rfl
          | lt =>
            rw [hc1] at hab
            cases hc2 : cmp b c with
            | gt => rw [hc2] at hbc; exact absurd hbc (by simp)
            | eq =>
              have := (h.eq_iff b c).mp hc2
              subst this
              rw [hc1]
            | lt =>
              rw [h.lt_trans a b c hc1 hc2]

/-- Byte comparison of characters is linear. -/
theorem isLinearCmp_charCmp : IsLinearCmp (fun c d : Char => compare c.toNat d.toNat) := by
  constructor
  · intro a b
    simp only [Nat.compare_eq_eq]
    constructor
    · intro hn; exact Char.ext (UInt32.ext hn)
    · intro he; rw [he]
  · intro a b; exact Nat.compare_swap a.toNat b.toNat
  · intro a b c hab hbc
    simp only [Nat.compare_eq_lt] at hab hbc ⊢
    exact Nat.lt_trans hab hbc

theorem isLinearCmp_pyStrCmp : IsLinearCmp pyStrCmp := by
  have h := isLinearCmp_lexCmp isLinearCmp_charCmp
  constructor
  · intro a b
    unfold pyStrCmp
    rw [h.eq_iff]
    constructor
    · intro hd; exact String.ext hd
    · intro he; rw [he]
  · intro a b; exact h.swap_eq a.data b.data
  · intro a b c; exact h.lt_trans a.data b.data c.data

theorem isLinearCmp_pyRowCmp : IsLinearCmp pyRowCmp :=
  isLinearCmp_lexCmp isLinearCmp_pyStrCmp

theorem isLinearCmp_pyRowsCmp : IsLinearCmp pyRowsCmp :=
  isLinearCmp_lexCmp isLinearCmp_pyRowCmp

theorem pyGroupLe_trans (a b c : String × List Row)
    (hab : pyGroupLe a b = true) (hbc : pyGroupLe b c = true) :
    pyGroupLe a c = true := by
  unfold pyGroupLe at hab hbc ⊢
  rw [decide_eq_true_iff] at hab hbc ⊢
  exact isLinearCmp_pyRowsCmp.le_trans hab hbc

theorem pyGroupLe_total (a b : String × List Row) :
    (pyGroupLe a b || pyGroupLe b a) = true := by
  unfold pyGroupLe
  rcases isLinearCmp_pyRowsCmp.le_total a.2 b.2 with h | h
  · rw [decide_eq_true h]; rfl
  · rw [decide_eq_true h, Bool.or_true]

/-! ## Sorting lemmas -/

theorem insertSorted_perm (le : α → α → Bool) (a : α) :
    ∀ l : List α, (insertSorted le a l).Perm (a :: l) := by
  intro l
  induction l with
  | nil => simp [insertSorted]
  | cons b bs ih =>
    unfold insertSorted
    by_cases h : le a b = true
    · rw [if_pos h]
    · rw [if_neg h]
      exact (ih.cons b).trans (List.Perm.swap a b bs)

theorem pySorted_perm (le : α → α → Bool) :
    ∀ l : List α, (pySorted le l).Perm l := by
  intro l
  induction l with
  | nil => simp [pySorted]
  | cons a l ih =>
    have : pySorted le (a :: l) = insertSorted le a (pySorted le l) := rfl
    rw [this]
    exact (insertSorted_perm le a (pySorted le l)).trans (ih.cons a)

theorem mem_insertSorted (le : α → α → Bool) (a x : α) (l : List α) :
    x ∈ insertSorted le a l ↔ x = a ∨ x ∈ l := by
  rw [(insertSorted_perm le a l).mem_iff]
  simp

theorem insertSorted_pairwise (le : α → α → Bool)
    (htrans : ∀ a b c, le a b = true → le b c = true → le a c = true)
    (htotal : ∀ a b, (le a b || le b a) = true)
    (a : α) : ∀ l : List α, l.Pairwise (fun x y => le x y = true) →
      (insertSorted le a l).Pairwise (fun x y => le x y = true) := by
  intro l
  induction l with
  | nil => simp [insertSorted]
  | cons b bs ih =>
    intro hl
    rcases List.pairwise_cons.mp hl with ⟨hb, hbs⟩
    unfold insertSorted
    by_cases h : le a b = true
    · rw [if_pos h]
      rw [List.pairwise_cons]
      refine ⟨?_, hl⟩
      intro x hx
      rcases List.mem_cons.mp hx with rfl | hx'
      · exact h
      · exact htrans a b x h (hb x hx')
    · rw [if_neg h]
      rw [List.pairwise_cons]
      have hba : le b a = true := by
        rcases Bool.or_eq_true_iff.mp (htotal a b) with hab | hba
        · exact absurd hab h
        · exact hba
      refine ⟨?_, ih hbs⟩
      intro x hx
      rcases (mem_insertSorted le a x bs).mp hx with rfl | hx'
      · exact hba
      · exact hb x hx'

theorem pySorted_pairwise (le : α → α → Bool)
    (htrans : ∀ a b c, le a b = true → le b c = true → le a c = true)
    (htotal : ∀ a b, (le a b || le b a) = true) :
    ∀ l : List α, (pySorted le l).Pairwise (fun x y => le x y = true) := by
  intro l
  induction l with
  | nil => simp [pySorted]
  | cons a l ih =>
    have : pySorted le (a :: l) = insertSorted le a (pySorted le l) := rfl
    rw [this]
    exact insertSorted_pairwise le htrans htotal a (pySorted le l) ih

/-! ## Grouping invariants -/

def keysOf (cats : List (String × List Row)) : List String :=
  cats.map Prod.fst

/-- The entries currently recorded for category `c` (first match). -/
def catEntries (cats : List (String × List Row)) (c : String) : List Row :=
  match cats.find? (fun p => p.1 = c) with
  | some p => p.2
  | none => []

/-- Unfold `catEntries` at a cons cell. -/
theorem catEntries_cons (p : String × List Row) (cats : List (String × List Row))
    (c : String) :
    catEntries (p :: cats) c = if p.1 = c then p.2 else catEntries cats c := by
  unfold catEntries
  rw [List.find?_cons]
  by_cases h : p.1 = c <;> simp [h]

/-- If no key equals `c`, the update map of `insertEntry` is the identity. -/
theorem map_update_id (l : List (String × List Row)) (c : String) (r : Row)
    (h : l.any (fun p => p.1 = c) = false) :
    l.map (fun p => if p.1 = c then (p.1, p.2 ++ [r]) else p) = l := by
  have h' := List.any_eq_false.mp h
  rw [show l.map (fun p : String × List Row => if p.1 = c then (p.1, p.2 ++ [r]) else p) =
      l.map id from ?_, List.map_id]
  apply List.map_congr_left
  intro p hp
  have : ¬(p.1 = c) := by
    intro hc
    exact h' p hp (by simp [hc])
  simp [this]

theorem insertEntry_any_false (acc : List (String × List Row)) (c : String) (r : Row)
    (h : acc.any (fun p => p.1 = c) = false) :
    insertEntry acc c r = acc ++ [(c, [r])] := by
  unfold insertEntry
  rw [if_neg]
  simp [h]

theorem keysOf_insertEntry (acc : List (String × List Row)) (c : String) (r : Row) :
    keysOf (insertEntry acc c r) =
      if acc.any (fun p => p.1 = c) then keysOf acc else keysOf acc ++ [c] := by
  unfold insertEntry
  by_cases hany : acc.any (fun p => p.1 = c) = true
  · rw [if_pos hany, if_pos hany]
    simp only [keysOf, List.map_map]
    apply List.map_congr_left
    intro p _
    by_cases hp : p.1 = c <;> simp [hp]
  · rw [if_neg hany, if_neg hany]
    simp [keysOf]

theorem catEntries_insertEntry (acc : List (String × List Row)) (c c' : String) (r : Row) :
    catEntries (insertEntry acc c r) c' =
      if c' = c then catEntries acc c ++ [r] else catEntries acc c' := by
  induction acc with
  | nil =>
    rw [insertEntry_any_false [] c r rfl]
    by_cases hcc : c' = c
    · subst hcc; simp [catEntries_cons, catEntries]
    · simp [catEntries_cons, catEntries, Ne.symm hcc, hcc]
  | cons p acc' ih =>
    by_cases hp : p.1 = c
    · have hany : (p :: acc').any (fun q => q.1 = c) = true := by simp [hp]
      unfold insertEntry
      rw [if_pos hany]
      rw [List.map_cons, if_pos hp, catEntries_cons]
      by_cases hcc : c' = c
      · subst hcc
        rw [if_pos rfl, if_pos hp, catEntries_cons, if_pos hp]
      · rw [if_neg (by rw [hp]; exact fun he => hcc he.symm), if_neg hcc,
          catEntries_cons, if_neg (by rw [hp]; exact fun he => hcc he.symm)]
        by_cases hany' : acc'.any (fun q => q.1 = c) = true
        · have := ih
          unfold insertEntry at this
          rw [if_pos hany'] at this
          rw [this, if_neg hcc]
        · rw [map_update_id acc' c r (Bool.not_eq_true _ ▸ hany')]
    · by_cases hany' : acc'.any (fun q => q.1 = c) = true
      · have hany : (p :: acc').any (fun q => q.1 = c) = true := by
          simp only [List.any_cons, Bool.or_eq_true]
          right; exact hany'
        unfold insertEntry
        rw [if_pos hany, List.map_cons, if_neg hp]
        rw [catEntries_cons]
        have ihm := ih
        unfold insertEntry at ihm
        rw [if_pos hany'] at ihm
        by_cases hpc' : p.1 = c'
        · have hcc : ¬(c' = c) := by
            intro he; rw [← he] at hp; exact hp hpc'
          rw [if_pos hpc', if_neg hcc, catEntries_cons, if_pos hpc']
        · rw [if_neg hpc', ihm]
          by_cases hcc : c' = c
          · simp [hcc, hp, catEntries_cons]
          · simp [hcc, catEntries_cons, hpc']
      · have hany : (p :: acc').any (fun q => q.1 = c) = false := by
          simp only [List.any_cons, Bool.or_eq_false_iff]
          exact ⟨by simp [hp], Bool.not_eq_true _ ▸ hany'⟩
        rw [insertEntry_any_false _ _ _ hany, List.cons_append, catEntries_cons]
        have ihm := ih
        rw [insertEntry_any_false _ _ _ (Bool.not_eq_true _ ▸ hany')] at ihm
        by_cases hpc' : p.1 = c'
        · have hcc : ¬(c' = c) := by
            intro he; rw [← he] at hp; exact hp hpc'
          rw [if_pos hpc', if_neg hcc, catEntries_cons, if_pos hpc']
        · rw [if_neg hpc', ihm]
          by_cases hcc : c' = c
          · simp [hcc, hp, catEntries_cons]
          · simp [hcc, catEntries_cons, hpc']

theorem nodup_keysOf_insertEntry (acc : List (String × List Row)) (c : String) (r : Row)
    (h : (keysOf acc).Nodup) : (keysOf (insertEntry acc c r)).Nodup := by
  rw [keysOf_insertEntry]
  by_cases hany : acc.any (fun p => p.1 = c) = true
  · rw [if_pos hany]; exact h
  · rw [if_neg hany]
    rw [List.nodup_append]
    refine ⟨h, List.nodup_singleton c, ?_⟩
    intro k hk hk'
    rcases List.mem_map.mp hk with ⟨p, hpm, hpk⟩
    rcases List.mem_singleton.mp hk' with rfl
    apply hany
    exact List.any_eq_true.mpr ⟨p, hpm, by simp [hpk]⟩

theorem insertEntry_preserves (acc : List (String × List Row)) (c : String) (r : Row)
    (P : String → Row → Prop)
    (hacc : ∀ p ∈ acc, ∀ r' ∈ p.2, P p.1 r') (hr : P c r) :
    ∀ p ∈ insertEntry acc c r, ∀ r' ∈ p.2, P p.1 r' := by
  unfold insertEntry
  split
  · intro p hp r' hr'
    rcases List.mem_map.mp hp with ⟨q, hqm, hq⟩
    by_cases hq1 : q.1 = c
    · rw [if_pos hq1] at hq
      cases hq
      rcases List.mem_append.mp hr' with hin | hin
      · exact hacc q hqm r' hin
      · rcases List.mem_singleton.mp hin with rfl
        rw [hq1]; exact hr
    · rw [if_neg hq1] at hq
      cases hq
      exact hacc _ hqm r' hr'
  · intro p hp r' hr'
    rcases List.mem_append.mp hp with hin | hin
    · exact hacc p hin r' hr'
    · rcases List.mem_singleton.mp hin with rfl
      rcases List.mem_singleton.mp hr' with rfl
      exact hr

theorem flatten_insertEntry (acc : List (String × List Row)) (c : String) (r : Row)
    (hnd : (keysOf acc).Nodup) :
    (((insertEntry acc c r).map Prod.snd).flatten).Perm
      (((acc.map Prod.snd).flatten) ++ [r]) := by
  induction acc with
  | nil =>
    rw [insertEntry_any_false [] c r rfl]
    simp
  | cons p acc' ih =>
    have hnd2 : p.1 ∉ keysOf acc' ∧ (keysOf acc').Nodup := by
      rw [show keysOf (p :: acc') = p.1 :: keysOf acc' from rfl] at hnd
      exact List.nodup_cons.mp hnd
    have hnd' : (keysOf acc').Nodup := hnd2.2
    by_cases hp : p.1 = c
    · have hnotail : acc'.any (fun q => q.1 = c) = false := by
        rw [List.any_eq_false]
        intro q hq hdec
        rw [decide_eq_true_iff] at hdec
        exact hnd2.1 (by rw [hp, ← hdec]; exact List.mem_map.mpr ⟨q, hq, rfl⟩)
      unfold insertEntry
      rw [if_pos (by simp [hp])]
      rw [List.map_cons, if_pos hp, map_update_id acc' c r hnotail]
      simp only [List.map_cons, List.flatten_cons]
      rw [List.append_assoc, List.append_assoc]
      exact List.Perm.append_left p.2 (List.perm_append_comm)
    · by_cases hany' : acc'.any (fun q => q.1 = c) = true
      · unfold insertEntry
        rw [if_pos (by simp only [List.any_cons, Bool.or_eq_true]; right; exact hany')]
        rw [List.map_cons, if_neg hp]
        have ihm := ih hnd'
        unfold insertEntry at ihm
        rw [if_pos hany'] at ihm
        simp only [List.map_cons, List.flatten_cons]
        rw [List.append_assoc]
        exact List.Perm.append_left p.2 ihm
      · have hany : (p :: acc').any (fun q => q.1 = c) = false := by
          simp only [List.any_cons, Bool.or_eq_false_iff]
          exact ⟨by simp [hp], Bool.not_eq_true _ ▸ hany'⟩
        rw [insertEntry_any_false _ _ _ hany]
        simp

theorem insertEntry_nonempty (acc : List (String × List Row)) (c : String) (r : Row)
    (hacc : ∀ p ∈ acc, p.2 ≠ []) :
    ∀ p ∈ insertEntry acc c r, p.2 ≠ [] := by
  unfold insertEntry
  split
  · intro p hp
    rcases List.mem_map.mp hp with ⟨q, hqm, hq⟩
    by_cases hq1 : q.1 = c
    · rw [if_pos hq1] at hq
      cases hq
      simp
    · rw [if_neg hq1] at hq
      cases hq
      exact hacc _ hqm
  · intro p hp
    rcases List.mem_append.mp hp with hin | hin
    · exact hacc p hin
    · rcases List.mem_singleton.mp hin with rfl
      simp

/-! ## `groupAux` invariants -/

theorem groupAux_catEntries : ∀ rows acc G, groupAux rows acc = .ok G →
    ∀ c, catEntries G c =
      catEntries acc c ++ rows.filter (fun r => r[5]? == some c) := by
  intro rows
  induction rows with
  | nil =>
    intro acc G h c
    injection h with h
    subst h
    simp
  | cons r rs ih =>
    intro acc G h c
    simp only [groupAux, getItem] at h
    cases h5 : r[5]? with
    | none =>
      rw [h5] at h
      simp only [Bind.bind, Except.bind] at h
      exact (Except.noConfusion h)
    | some cv =>
      rw [h5] at h
      simp only [Bind.bind, Except.bind] at h
      rw [ih (insertEntry acc cv r) G h c, catEntries_insertEntry, List.filter_cons]
      by_cases hc : cv = c
      · subst hc
        rw [if_pos rfl]
        rw [if_pos (by simp [h5])]
        rw [List.append_assoc, List.singleton_append]
      · rw [if_neg (fun he => hc he.symm)]
        rw [if_neg (by simp [h5, hc])]

theorem groupAux_nodup : ∀ rows acc G, groupAux rows acc = .ok G →
    (keysOf acc).Nodup → (keysOf G).Nodup := by
  intro rows
  induction rows with
  | nil =>
    intro acc G h hnd
    injection h with h
    subst h
    exact hnd
  | cons r rs ih =>
    intro acc G h hnd
    simp only [groupAux, getItem] at h
    cases h5 : r[5]? with
    | none =>
      rw [h5] at h
      simp only [Bind.bind, Except.bind] at h
      exact (Except.noConfusion h)
    | some cv =>
      rw [h5] at h
      simp only [Bind.bind, Except.bind] at h
      exact ih _ G h (nodup_keysOf_insertEntry acc cv r hnd)

theorem groupAux_nonempty : ∀ rows acc G, groupAux rows acc = .ok G →
    (∀ p ∈ acc, p.2 ≠ []) → ∀ p ∈ G, p.2 ≠ [] := by
  intro rows
  induction rows with
  | nil =>
    intro acc G h hne
    injection h with h
    subst h
    exact hne
  | cons r rs ih =>
    intro acc G h hne
    simp only [groupAux, getItem] at h
    cases h5 : r[5]? with
    | none =>
      rw [h5] at h
      simp only [Bind.bind, Except.bind] at h
      exact (Except.noConfusion h)
    | some cv =>
      rw [h5] at h
      simp only [Bind.bind, Except.bind] at h
      exact ih _ G h (insertEntry_nonempty acc cv r hne)

theorem groupAux_field5 : ∀ rows acc G, groupAux rows acc = .ok G →
    (∀ p ∈ acc, ∀ r' ∈ p.2, r'[5]? = some p.1) →
    ∀ p ∈ G, ∀ r' ∈ p.2, r'[5]? = some p.1 := by
  intro rows
  induction rows with
  | nil =>
    intro acc G h hf
    injection h with h
    subst h
    exact hf
  | cons r rs ih =>
    intro acc G h hf
    simp only [groupAux, getItem] at h
    cases h5 : r[5]? with
    | none =>
      rw [h5] at h
      simp only [Bind.bind, Except.bind] at h
      exact (Except.noConfusion h)
    | some cv =>
      rw [h5] at h
      simp only [Bind.bind, Except.bind] at h
      exact ih _ G h
        (insertEntry_preserves acc cv r (fun c r' => r'[5]? = some c) hf h5)

theorem groupAux_flatten : ∀ rows acc G, groupAux rows acc = .ok G →
    (keysOf acc).Nodup →
    ((G.map Prod.snd).flatten).Perm (((acc.map Prod.snd).flatten) ++ rows) := by
  intro rows
  induction rows with
  | nil =>
    intro acc G h _
    injection h with h
    subst h
    simp
  | cons r rs ih =>
    intro acc G h hnd
    simp only [groupAux, getItem] at h
    cases h5 : r[5]? with
    | none =>
      rw [h5] at h
      simp only [Bind.bind, Except.bind] at h
      exact (Except.noConfusion h)
    | some cv =>
      rw [h5] at h
      simp only [Bind.bind, Except.bind] at h
      have h1 := ih _ G h (nodup_keysOf_insertEntry acc cv r hnd)
      have h2 := flatten_insertEntry acc cv r hnd
      have h3 := h2.append_right rs
      have := h1.trans h3
      rwa [List.append_assoc, List.singleton_append] at this

/-- In a keyed list with distinct keys, each member's entries are the
entries recorded for its key. -/
theorem mem_eq_catEntries (cats : List (String × List Row)) (p : String × List Row)
    (hnd : (keysOf cats).Nodup) (hm : p ∈ cats) : p.2 = catEntries cats p.1 := by
  induction cats with
  | nil => cases hm
  | cons q cats' ih =>
    have hnd2 : q.1 ∉ keysOf cats' ∧ (keysOf cats').Nodup := by
      rw [show keysOf (q :: cats') = q.1 :: keysOf cats' from rfl] at hnd
      exact List.nodup_cons.mp hnd
    rcases List.mem_cons.mp hm with rfl | hm'
    · rw [catEntries_cons, if_pos rfl]
    · rw [catEntries_cons, if_neg ?hq1]
      · exact ih hnd2.2 hm'
      · intro he
        exact hnd2.1 (he ▸ List.mem_map.mpr ⟨p, hm', rfl⟩)

/-- Unpack `sort_entries_by_category`. -/
theorem sort_entries_eq (rows : List Row) (G : List (String × List Row))
    (h : sort_entries_by_category rows = .ok G) :
    ∃ cats, groupAux rows [] = .ok cats ∧ G = pySorted pyGroupLe cats := by
  unfold sort_entries_by_category at h
  cases hg : groupAux rows [] with
  | error e =>
    rw [hg] at h
    simp only [Bind.bind, Except.bind] at h
    exact (Except.noConfusion h)
  | ok cats =>
    rw [hg] at h
    simp only [Bind.bind, Except.bind] at h
    injection h with h
    exact ⟨cats, rfl, h.symm⟩

/-! ## Claims C1 and C7 -/

/-- Rows whose sorted group order differs from their category-name order. -/
def c1DemoRows : List Row :=
  [["b", "", "", "", "", "catA"], ["a", "", "", "", "", "catB"]]

/-- The grouping of `c1DemoRows` as sorted by the program. -/
def c1DemoSorted : List (String × List Row) :=
  [("catB", [["a", "", "", "", "", "catB"]]),
   ("catA", [["b", "", "", "", "", "catA"]])]

/-- C1: for every parsed input, the document builder outputs the
(category, entry-list) pairs in the order obtained by sorting the pairs
by lexicographic comparison of their entry lists (the list of rows itself
is the sort key), not by comparing category names: the output is a
permutation of the grouping that is pairwise ordered by `pyRowsCmp` on
the entry lists, and on `c1DemoRows` the resulting category sequence
`catB, catA` is the reverse of the category-name order. -/
theorem c1_groups_sorted_by_entry_lists :
    (∀ rows G, sort_entries_by_category rows = .ok G →
        G.Pairwise (fun p q => pyRowsCmp p.2 q.2 ≠ .gt) ∧
        ∃ cats, groupAux rows [] = .ok cats ∧ G.Perm cats) ∧
    (sort_entries_by_category c1DemoRows = .ok c1DemoSorted ∧
      c1DemoSorted.map Prod.fst = ["catB", "catA"] ∧
      pyStrCmp "catA" "catB" = .lt) := by
  constructor
  · intro rows G h
    rcases sort_entries_eq rows G h with ⟨cats, hg, rfl⟩
    constructor
    · exact (pySorted_pairwise pyGroupLe pyGroupLe_trans pyGroupLe_total cats).imp
        (fun hab => decide_eq_true_iff.mp hab)
    · exact ⟨cats, hg, pySorted_perm pyGroupLe cats⟩
  · exact ⟨rfl, by decide, by decide⟩

/-- Witness for C1 at `c1DemoRows`. -/
theorem c1_groups_sorted_by_entry_lists_witness :
    c1DemoSorted.Pairwise (fun p q => pyRowsCmp p.2 q.2 ≠ .gt) ∧
    ∃ cats, groupAux c1DemoRows [] = .ok cats ∧ c1DemoSorted.Perm cats :=
  c1_groups_sorted_by_entry_lists.1 c1DemoRows c1DemoSorted rfl

/-- C7: grouping by the category field (row index 5) is a partition of
the data rows: the concatenation of the produced groups is a permutation
of the input rows, each group holds exactly the input rows carrying its
category in their original (first-seen) relative order, and no two
groups share a category. -/
theorem c7_grouping_is_partition :
    ∀ rows G, sort_entries_by_category rows = .ok G →
      ((G.map Prod.snd).flatten).Perm rows ∧
      (∀ p ∈ G, p.2 = rows.filter (fun r => r[5]? == some p.1)) ∧
      (G.map Prod.fst).Nodup := by
  intro rows G h
  rcases sort_entries_eq rows G h with ⟨cats, hg, rfl⟩
  have hperm : (pySorted pyGroupLe cats).Perm cats := pySorted_perm pyGroupLe cats
  have hnodupc : (keysOf cats).Nodup := groupAux_nodup rows [] cats hg (by simp [keysOf])
  refine ⟨?_, ?_, ?_⟩
  · have h1 : ((pySorted pyGroupLe cats).map Prod.snd).Perm (cats.map Prod.snd) :=
      hperm.map _
    have h2 := h1.flatten
    have h3 := groupAux_flatten rows [] cats hg (by simp [keysOf])
    simpa using h2.trans h3
  · intro p hp
    have hpc : p ∈ cats := hperm.mem_iff.mp hp
    have hme := mem_eq_catEntries cats p hnodupc hpc
    rw [hme, groupAux_catEntries rows [] cats hg p.1]
    simp [catEntries]
  · exact ((hperm.map Prod.fst).symm).nodup hnodupc

/-- Rows exercising C7: two categories, interleaved input order. -/
def c7DemoRows : List Row :=
  [["u1", "a", "b", "c", "d", "Work", "x"],
   ["u2", "a", "b", "c", "d", "Home"],
   ["u3", "a", "b", "c", "d", "Work"]]

def c7DemoSorted : List (String × List Row) :=
  [("Work", [["u1", "a", "b", "c", "d", "Work", "x"], ["u3", "a", "b", "c", "d", "Work"]]),
   ("Home", [["u2", "a", "b", "c", "d", "Home"]])]

/-- Witness for C7 at `c7DemoRows`. -/
theorem c7_grouping_is_partition_witness :
    ((c7DemoSorted.map Prod.snd).flatten).Perm c7DemoRows ∧
    (∀ p ∈ c7DemoSorted, p.2 = c7DemoRows.filter (fun r => r[5]? == some p.1)) ∧
    (c7DemoSorted.map Prod.fst).Nodup :=
  c7_grouping_is_partition c7DemoRows c7DemoSorted rfl

/-! ## Claim C8: the single-line-records path of the normalizer -/

/-- C8: for any raw export in which every line begins a new record (every
physical line matches the row-start pattern), the normalizer output is
exactly the input with each line trimmed and preceded by one line break. -/
theorem c8_single_line_records (raw : List Char)
    (h : ∀ l ∈ pyReadlines raw, isRowStart l = true) :
    parse_and_write_temp_csv raw =
      ((pyReadlines raw).map (fun l => '\n' :: pyStrip l)).flatten := by
  unfold parse_and_write_temp_csv
  congr 1
  apply List.map_congr_left
  intro l hl
  unfold normalizeLine
  rw [if_pos (h l hl)]

def c8DemoRaw : List Char :=
  ("http://a.com,u1,p1,e,Site A,Work,today,6,0\n" ++
   "http://b.org,u2,p2,e,Site B,Home,today,7,1\n").data

/-- Witness for C8 at `c8DemoRaw`. -/
theorem c8_single_line_records_witness :
    (∀ l ∈ pyReadlines c8DemoRaw, isRowStart l = true) ∧
    parse_and_write_temp_csv c8DemoRaw =
      ((pyReadlines c8DemoRaw).map (fun l => '\n' :: pyStrip l)).flatten :=
  ⟨by decide, c8_single_line_records c8DemoRaw (by decide)⟩

/-! ## Claim C9: the sentinel round trip -/

/-- A character other than `'|'` in head position is emitted verbatim. -/
theorem restoreNewlines_cons_of_ne (c : Char) (u : List Char) (hc : c ≠ '|') :
    restoreNewlines (c :: u) = c :: restoreNewlines u := by
  match u with
  | [] => rfl
  | [d] => rfl
  | d :: e :: rest =>
    show restoreNewlines (c :: d :: e :: rest) = _
    simp only [restoreNewlines]
    rw [if_neg (fun hcon => hc hcon.1)]

/-- A sentinel in head position becomes one line break. -/
theorem restoreNewlines_sentinel (u : List Char) :
    restoreNewlines ('|' :: '\t' :: '|' :: u) = '\n' :: restoreNewlines u := by
  simp [restoreNewlines]

/-- The raw export of C9's scenario: one header line, then a record whose
note field `"line1\nline2"` spans two physical lines (the second ends with
the comma-digit pattern, as a LastPass record does). -/
def c9Raw : List Char :=
  ("url,username,password,extra,name,grouping,fav\n" ++
   "http://a.com,u1,p1,\"line1\nline2\",Site A,Work,today,6,0\n").data

/-- Counterexample to C9 as stated: for this record, split across two
physical lines by an embedded line break inside the note field, the
comment produced by the full pipeline is `line1line2`, not the original
note content `line1` + line break + `line2`: the line break ending the
record's first physical line is removed by `strip()` on the row-start
branch and never becomes a sentinel, so the round trip loses it. -/
theorem c9_counterexample :
    ((read_temp_file (parse_and_write_temp_csv c9Raw)).bind
        (generate_keepass_xml_document (fun _ => "T"))).map
        (fun e => (docEntries e).map (fun en => childText en "comment"))
      = .ok [some "line1line2"] ∧
    ("line1line2" : String) ≠ "line1\nline2" :=
  ⟨rfl, by decide⟩

/-- C9 amended: only the line breaks ending interior continuation lines
are replaced by the sentinel token, and for those the substitution is
reversed exactly by the comment mapping provided the fragment contains no
`'|'` character: restoring after replacing is the identity.  (The break
ending a record's first physical line is stripped, not sentinel-replaced,
so the full original note is not always reproduced — see the
counterexample.) -/
theorem c9_sentinel_round_trip (s : List Char) (h : '|' ∉ s) :
    restoreNewlines (replaceNewlines s) = s := by
  induction s with
  | nil => rfl
  | cons c t ih =>
    have hc : c ≠ '|' := fun he => h (he ▸ List.mem_cons_self c t)
    have ht : '|' ∉ t := fun hm => h (List.mem_cons_of_mem c hm)
    unfold replaceNewlines
    by_cases hnl : c = '\n'
    · rw [if_pos hnl, restoreNewlines_sentinel, ih ht, hnl]
    · rw [if_neg hnl, restoreNewlines_cons_of_ne c _ hc, ih ht]

/-- Witness for the C9 round-trip law on a fragment with two embedded
line breaks. -/
theorem c9_sentinel_round_trip_witness :
    ('|' ∉ ("ab\ncd\nef".data)) ∧
    restoreNewlines (replaceNewlines ("ab\ncd\nef".data)) = "ab\ncd\nef".data :=
  ⟨by decide, c9_sentinel_round_trip ("ab\ncd\nef".data) (by decide)⟩

/-! ## Claim C4: the comment transform -/

theorem dropWhile_all {α : Type} {p : α → Bool} :
    ∀ l : List α, (∀ c ∈ l, p c = true) → l.dropWhile p = [] := by
  intro l h
  induction l with
  | nil => rfl
  | cons a t ih =>
    rw [List.dropWhile_cons, if_pos (h a (List.mem_cons_self a t))]
    exact ih (fun c hc => h c (List.mem_cons_of_mem a hc))

theorem dropWhile_append_all {α : Type} {p : α → Bool} :
    ∀ l₁ l₂ : List α, (∀ c ∈ l₁, p c = true) →
      (l₁ ++ l₂).dropWhile p = l₂.dropWhile p := by
  intro l₁ l₂ h
  induction l₁ with
  | nil => rfl
  | cons a t ih =>
    rw [List.cons_append, List.dropWhile_cons,
      if_pos (h a (List.mem_cons_self a t))]
    exact ih (fun c hc => h c (List.mem_cons_of_mem a hc))

theorem dropWhile_head_false {α : Type} {p : α → Bool} :
    ∀ l : List α, (∀ c, l.head? = some c → p c = false) → l.dropWhile p = l := by
  intro l h
  cases l with
  | nil => rfl
  | cons a t =>
    rw [List.dropWhile_cons, if_neg]
    rw [h a rfl]
    simp

/-- Python's `str.strip('"')` removes every leading and every trailing quote: on a
text of the shape `quotes ++ core ++ quotes`, with `core` not starting or
ending in a quote, it returns `core`. -/
theorem pyStripQuotes_eq (qa core qb : List Char)
    (hqa : ∀ c ∈ qa, c = '"') (hqb : ∀ c ∈ qb, c = '"')
    (hh : ∀ c, core.head? = some c → c ≠ '"')
    (hl : ∀ c, core.getLast? = some c → c ≠ '"') :
    pyStripQuotes (qa ++ core ++ qb) = core := by
  unfold pyStripQuotes
  rw [List.append_assoc,
    dropWhile_append_all qa (core ++ qb) (fun c hc => by simp [hqa c hc])]
  cases core with
  | nil =>
    rw [List.nil_append, dropWhile_all qb (fun c hc => by simp [hqb c hc])]
    rfl
  | cons c0 core' =>
    rw [List.cons_append, List.dropWhile_cons, if_neg (by
      have := hh c0 rfl
      simp [this])]
    rw [show c0 :: (core' ++ qb) = (c0 :: core') ++ qb from rfl, List.reverse_append]
    rw [dropWhile_append_all qb.reverse _ (fun c hc =>
      by simp [hqb c (List.mem_reverse.mp hc)])]
    rw [dropWhile_head_false (c0 :: core').reverse (fun c hc => by
      rw [List.head?_reverse] at hc
      have := hl c hc
      simp [this])]
    rw [List.reverse_reverse]

def c4Row : Row := ["u", "n", "p", "\"\"note\"\"", "t", "c"]

/-- Modelled from the claim's words: remove exactly one layer of
surrounding double-quote characters (used only to exhibit the
counterexample; the code's own transform is `pyStripQuotes`). -/
def stripOneQuoteLayer (s : List Char) : List Char :=
  if s.head? = some '"' ∧ s.getLast? = some '"' ∧ 2 ≤ s.length then
    (s.drop 1).dropLast
  else s

/-- Counterexample to C4 as stated: for the note field `""note""` the
code's comment is `note` (every surrounding quote removed), while
removing exactly one layer of quotes would give `"note"`. -/
theorem c4_counterexample :
    (add_entry "T" c4Row).map (fun e => childText e "comment") = .ok (some "note") ∧
    stripOneQuoteLayer (restoreNewlines ("\"\"note\"\"".data)) = ("\"note\"".data) ∧
    (some ("note" : String)) ≠ some "\"note\"" :=
  ⟨rfl, by decide, by decide⟩

/-- C4 amended: the comment equals the note field with every sentinel
occurrence replaced by a line break and then all (not exactly one layer
of) leading and trailing double quotes removed: whenever the restored
note text splits as `quotes ++ core ++ quotes` with `core` not starting
or ending in a quote, the comment is exactly `core`. -/
theorem c4_comment_strips_all_quote_layers
    (ts : String) (r : Row) (e : Element) (f3 : String) (qa core qb : List Char)
    (h : add_entry ts r = .ok e) (h3 : r[3]? = some f3)
    (hdec : restoreNewlines f3.data = qa ++ core ++ qb)
    (hqa : ∀ c ∈ qa, c = '"') (hqb : ∀ c ∈ qb, c = '"')
    (hh : ∀ c, core.head? = some c → c ≠ '"')
    (hl : ∀ c, core.getLast? = some c → c ≠ '"') :
    childText e "comment" = some (String.mk core) := by
  rcases add_entry_children ts r e h with ⟨t, u, p, url, f3', la, _, _, _, _, h3', _, he⟩
  have hf : f3' = f3 := by
    rw [h3] at h3'
    injection h3' with hv
    exact hv.symm
  subst he
  show some (commentText f3') = some (String.mk core)
  unfold commentText
  rw [hf, hdec, pyStripQuotes_eq qa core qb hqa hqb hh hl]

/-- Witness for the amended C4 on a quoted note with a sentinel. -/
theorem c4_comment_strips_all_quote_layers_witness :
    childText
      { tag := "entry", text := none,
        children :=
          [leaf "username" "n", leaf "comment" (commentText "\"line1|\t|line2\""),
           leaf "creation" "T", leaf "expire" "Never", leaf "title" "t",
           leaf "url" "u", leaf "lastmod" "T", leaf "password" "p",
           leaf "lastaccess" "c", leaf "icon" "0"] } "comment"
      = some (String.mk ("line1\nline2".data)) :=
  c4_comment_strips_all_quote_layers "T"
    ["u", "n", "p", "\"line1|\t|line2\"", "t", "c"] _ "\"line1|\t|line2\""
    ['"'] ("line1\nline2".data) ['"'] rfl rfl (by decide)
    (by decide) (by decide) (by decide) (by decide)

/-! ## Claim C2: the order of the entry children -/

def c2Row : Row := ["u", "n", "p", "x", "t", "c"]

/-- The entry element the program builds for `c2Row` at timestamp `T`. -/
def c2Entry : Element :=
  { tag := "entry", text := none,
    children :=
      [leaf "username" "n", leaf "comment" "x", leaf "creation" "T",
       leaf "expire" "Never", leaf "title" "t", leaf "url" "u",
       leaf "lastmod" "T", leaf "password" "p", leaf "lastaccess" "c",
       leaf "icon" "0"] }

/-- Counterexample to C2 as stated: the children of an entry element are
emitted in the iteration order of a CPython 2.7 dict with the ten fixed
keys — `username, comment, creation, expire, title, url, lastmod,
password, lastaccess, icon` — which is not the order
`title, username, password, url, comment, icon, creation, lastaccess,
lastmod, expire` stated by the claim. -/
theorem c2_counterexample :
    (add_entry "T" c2Row).map childTags =
      .ok ["username", "comment", "creation", "expire", "title", "url",
           "lastmod", "password", "lastaccess", "icon"] ∧
    (["username", "comment", "creation", "expire", "title", "url",
      "lastmod", "password", "lastaccess", "icon"] : List String) ≠
      ["title", "username", "password", "url", "comment", "icon",
       "creation", "lastaccess", "lastmod", "expire"] :=
  ⟨rfl, by decide⟩

/-- C2 amended: every entry element has exactly the ten children
`title, username, password, url, comment, icon, creation, lastaccess,
lastmod, expire`, each exactly once, but they are emitted in the
iteration order of the backing CPython 2.7 dict (a fixed function of the
key hashes), not in the listed order. -/
theorem c2_children_in_dict_hash_order (ts : String) (r : Row) (e : Element)
    (h : add_entry ts r = .ok e) :
    childTags e = ["username", "comment", "creation", "expire", "title",
      "url", "lastmod", "password", "lastaccess", "icon"] ∧
    (childTags e).Perm ["title", "username", "password", "url", "comment",
      "icon", "creation", "lastaccess", "lastmod", "expire"] := by
  have hc : childTags e = ["username", "comment", "creation", "expire", "title",
      "url", "lastmod", "password", "lastaccess", "icon"] := by
    rcases add_entry_children ts r e h with ⟨t, u, p, url, f3, la, _, _, _, _, _, _, he⟩
    subst he
    rfl
  refine ⟨hc, ?_⟩
  rw [hc]
  decide

/-- Witness for the amended C2 at `c2Row`. -/
theorem c2_children_in_dict_hash_order_witness :
    childTags c2Entry = ["username", "comment", "creation", "expire", "title",
      "url", "lastmod", "password", "lastaccess", "icon"] ∧
    (childTags c2Entry).Perm ["title", "username", "password", "url", "comment",
      "icon", "creation", "lastaccess", "lastmod", "expire"] :=
  c2_children_in_dict_hash_order "T" c2Row c2Entry rfl

/-! ## Claim C3: the timestamps -/

theorem add_entry_timestamps (ts : String) (r : Row) (e : Element)
    (h : add_entry ts r = .ok e) :
    e.tag = "entry" ∧ childText e "creation" = some ts ∧
      childText e "lastmod" = some ts := by
  rcases add_entry_children ts r e h with ⟨t, u, p, url, f3, la, _, _, _, _, _, _, he⟩
  subst he
  exact ⟨rfl, rfl, rfl⟩

theorem addEntries_timestamps (clock : Nat → String) :
    ∀ rs i es, addEntries clock i rs = .ok es →
      ∀ en ∈ es, en.tag = "entry" ∧ ∃ j,
        childText en "creation" = some (clock j) ∧
        childText en "lastmod" = some (clock j) := by
  intro rs
  induction rs with
  | nil =>
    intro i es h en hen
    injection h with h
    subst h
    cases hen
  | cons r rs ih =>
    intro i es h en hen
    simp only [addEntries] at h
    cases he : add_entry (clock i) r with
    | error e' =>
      rw [he] at h
      simp only [Bind.bind, Except.bind] at h
      exact (Except.noConfusion h)
    | ok e1 =>
      rw [he] at h
      simp only [Bind.bind, Except.bind] at h
      cases hes : addEntries clock (i + 1) rs with
      | error e' =>
        rw [hes] at h
        simp only [Bind.bind, Except.bind] at h
        exact (Except.noConfusion h)
      | ok es' =>
        rw [hes] at h
        simp only [Bind.bind, Except.bind] at h
        injection h with h
        subst h
        rcases List.mem_cons.mp hen with rfl | hen'
        · rcases add_entry_timestamps (clock i) r en he with ⟨h1, h2, h3⟩
          exact ⟨h1, i, h2, h3⟩
        · exact ih (i + 1) es' hes en hen'

theorem add_category_children (clock : Nat → String) (i : Nat)
    (g : String × List Row) (el : Element)
    (h : add_category clock i g = .ok el) :
    ∃ es, addEntries clock i g.2 = .ok es ∧
      el.children = leaf "title" g.1 :: leaf "icon" "0" :: es := by
  unfold add_category at h
  cases hes : addEntries clock i g.2 with
  | error e' =>
    rw [hes] at h
    simp only [Bind.bind, Except.bind] at h
    exact (Except.noConfusion h)
  | ok es =>
    rw [hes] at h
    simp only [Bind.bind, Except.bind] at h
    injection h with h
    subst h
    exact ⟨es, rfl, rfl⟩

theorem addCategories_timestamps (clock : Nat → String) :
    ∀ gs i els, addCategories clock i gs = .ok els →
      ∀ el ∈ els, ∀ en ∈ el.children.filter (fun c => c.tag = "entry"),
        ∃ j, childText en "creation" = some (clock j) ∧
          childText en "lastmod" = some (clock j) := by
  intro gs
  induction gs with
  | nil =>
    intro i els h el hel
    injection h with h
    subst h
    cases hel
  | cons g gs ih =>
    intro i els h el hel
    simp only [addCategories] at h
    cases hc : add_category clock i g with
    | error e' =>
      rw [hc] at h
      simp only [Bind.bind, Except.bind] at h
      exact (Except.noConfusion h)
    | ok e1 =>
      rw [hc] at h
      simp only [Bind.bind, Except.bind] at h
      cases hcs : addCategories clock (i + g.2.length) gs with
      | error e' =>
        rw [hcs] at h
        simp only [Bind.bind, Except.bind] at h
        exact (Except.noConfusion h)
      | ok els' =>
        rw [hcs] at h
        simp only [Bind.bind, Except.bind] at h
        injection h with h
        subst h
        rcases List.mem_cons.mp hel with rfl | hel'
        · intro en hen
          rcases add_category_children clock i g el hc with ⟨es, hes, hch⟩
          rw [hch] at hen
          have hts := addEntries_timestamps clock g.2 i es hes
          have hfe : (leaf "title" g.1 :: leaf "icon" "0" :: es).filter
              (fun c => c.tag = "entry") = es := by
            rw [List.filter_cons, if_neg (by simp [leaf])]
            rw [List.filter_cons, if_neg (by simp [leaf])]
            apply List.filter_eq_self.mpr
            intro a ha
            simp [(hts a ha).1]
          rw [hfe] at hen
          rcases hts en hen with ⟨_, j, h2, h3⟩
          exact ⟨j, h2, h3⟩
        · exact ih (i + g.2.length) els' hcs el hel'

/-- C3 counterexample inputs: one category with two rows, and a clock
whose two samples differ (the run crosses a minute boundary between the
two `add_entry` calls). -/
def c3Clock : Nat → String :=
  fun i => if i = 0 then "2026-10-12T10:59" else "2026-10-12T11:00"

def c3Groups : List (String × List Row) :=
  [("Work", [["u", "a", "b", "c", "d", "Work"], ["v", "a", "b", "c", "d", "Work"]])]

/-- Counterexample to C3 as stated: the timestamp is sampled inside
`add_entry`, once per entry, not once per run; with a clock that ticks
between the two calls the two entries of a single run carry different
`creation` values. -/
theorem c3_counterexample :
    (generate_keepass_xml_document c3Clock c3Groups).map
        (fun e => (docEntries e).map (fun en => childText en "creation")) =
      .ok [some "2026-10-12T10:59", some "2026-10-12T11:00"] ∧
    ("2026-10-12T10:59" : String) ≠ "2026-10-12T11:00" :=
  ⟨rfl, by decide⟩

/-- C3 amended: each entry's `creation` and `lastmod` come from the same
per-entry clock sample, so they are equal within every entry; all entries
of a run carry the identical value only when the clock readings taken
during the run coincide (e.g. when no minute boundary is crossed). -/
theorem c3_per_entry_timestamps (clock : Nat → String)
    (groups : List (String × List Row)) (e : Element)
    (h : generate_keepass_xml_document clock groups = .ok e) :
    (∀ en ∈ docEntries e, childText en "creation" = childText en "lastmod") ∧
    ((∀ i j : Nat, clock i = clock j) →
      ∀ en ∈ docEntries e, ∀ en' ∈ docEntries e,
        childText en "creation" = childText en' "creation") := by
  unfold generate_keepass_xml_document at h
  cases hgs : addCategories clock 0 groups with
  | error e' =>
    rw [hgs] at h
    simp only [Bind.bind, Except.bind] at h
    exact (Except.noConfusion h)
  | ok gs =>
    rw [hgs] at h
    simp only [Bind.bind, Except.bind] at h
    injection h with h
    subst h
    have hmem : ∀ en ∈ docEntries { tag := "database", text := none, children := gs },
        ∃ j, childText en "creation" = some (clock j) ∧
          childText en "lastmod" = some (clock j) := by
      intro en hen
      unfold docEntries at hen
      rcases List.mem_flatten.mp hen with ⟨l, hl, henl⟩
      rcases List.mem_map.mp hl with ⟨el, hel, rfl⟩
      exact addCategories_timestamps clock groups 0 gs hgs el hel en henl
    constructor
    · intro en hen
      rcases hmem en hen with ⟨j, h2, h3⟩
      rw [h2, h3]
    · intro hconst en hen en' hen'
      rcases hmem en hen with ⟨j, h2, _⟩
      rcases hmem en' hen' with ⟨j', h2', _⟩
      rw [h2, h2', hconst j j']

def c3WitnessDoc : Element :=
  { tag := "database", text := none,
    children :=
      [{ tag := "group", text := none,
         children :=
           [leaf "title" "Work", leaf "icon" "0",
            { tag := "entry", text := none,
              children :=
                [leaf "username" "a", leaf "comment" "c", leaf "creation" "T",
                 leaf "expire" "Never", leaf "title" "d", leaf "url" "u",
                 leaf "lastmod" "T", leaf "password" "b", leaf "lastaccess" "Work",
                 leaf "icon" "0"] },
            { tag := "entry", text := none,
              children :=
                [leaf "username" "a", leaf "comment" "c", leaf "creation" "T",
                 leaf "expire" "Never", leaf "title" "d", leaf "url" "v",
                 leaf "lastmod" "T", leaf "password" "b", leaf "lastaccess" "Work",
                 leaf "icon" "0"] }] }] }

/-- Witness for the amended C3: a constant clock (no tick during the run). -/
theorem c3_per_entry_timestamps_witness :
    (∀ en ∈ docEntries c3WitnessDoc,
        childText en "creation" = childText en "lastmod") ∧
    ((∀ i j : Nat, (fun _ : Nat => "T") i = (fun _ : Nat => "T") j) →
      ∀ en ∈ docEntries c3WitnessDoc, ∀ en' ∈ docEntries c3WitnessDoc,
        childText en "creation" = childText en' "creation") :=
  c3_per_entry_timestamps (fun _ => "T") c3Groups c3WitnessDoc rfl

/-! ## Claim C6: missing argument -/

/-- Counterexample to C6 as stated: with no positional argument the
program prints the usage message and leaves every file alone, but
`print_and_exit` calls `sys.exit()` with no argument, which terminates
the process with exit status `0` — not a non-zero-equivalent status. -/
theorem c6_counterexample :
    (pyMain (fun _ => "T") ["lastpass2keepass.py"] []).outcome = .exited 0 ∧
    (pyMain (fun _ => "T") ["lastpass2keepass.py"] []).fs = [] ∧
    (pyMain (fun _ => "T") ["lastpass2keepass.py"] []).stdout =
      [HORIZ_LINE, usageMessage, HORIZ_LINE] :=
  ⟨rfl, rfl, rfl⟩

/-- C6 amended: when invoked with no positional argument the program
prints the usage message framed by the horizontal rule and exits via
`SystemExit` with status 0 (a success-equivalent status), without
creating or modifying any file. -/
theorem c6_usage_exit_status_zero (clock : Nat → String) (fs : FS) :
    pyMain clock ["lastpass2keepass.py"] fs =
      { outcome := .exited 0, fs := fs,
        stdout := [HORIZ_LINE, usageMessage, HORIZ_LINE] } :=
  rfl

/-! ## Claim C5: empty and header-only inputs -/

/-- A raw export holding only the LastPass header line. -/
def headerOnlyRaw : List Char :=
  "url,username,password,extra,name,grouping,fav\n".data

/-- C5 evaluated: on a fully empty input the run dies with the uncaught
`IndexError` from `entries.pop(0)`; but on a header-only input the
program completes successfully and writes an empty yet well-formed
document (a `database` root with no children) — it does not fail.  The
second conjunct exhibits the code's divergence from the claim. -/
theorem c5_header_only_produces_empty_document :
    (pyMain (fun _ => "T") ["lastpass2keepass.py", "in.csv"]
        [("in.csv", .text [])]).outcome = .crashed "IndexError" ∧
    (pyMain (fun _ => "T") ["lastpass2keepass.py", "in.csv"]
        [("in.csv", .text headerOnlyRaw)]).outcome = .completed ∧
    fsRead (pyMain (fun _ => "T") ["lastpass2keepass.py", "in.csv"]
        [("in.csv", .text headerOnlyRaw)]).fs "in.csv.export.xml" =
      some (.xmlDoc doctypeLine { tag := "database", text := none, children := [] }) :=
  ⟨rfl, rfl, rfl⟩

/-! ## Claim C10: trailing fields do not influence the document -/

/-- Two rows agreeing on their first six fields. -/
def agree6 (a b : Row) : Prop := a.take 6 = b.take 6

theorem agree6_get (a b : Row) (h : agree6 a b) (i : Nat) (hi : i < 6) :
    a[i]? = b[i]? := by
  have hc := congrArg (fun l : List String => l[i]?) h
  simpa [List.getElem?_take, hi] using hc

/-- Congruence: `add_entry` reads only indices 0 through 5. -/
theorem add_entry_congr (ts : String) (r1 r2 : Row) (h : agree6 r1 r2) :
    add_entry ts r1 = add_entry ts r2 := by
  unfold add_entry getItem
  rw [agree6_get r1 r2 h 4 (by omega), agree6_get r1 r2 h 1 (by omega),
    agree6_get r1 r2 h 2 (by omega), agree6_get r1 r2 h 0 (by omega),
    agree6_get r1 r2 h 3 (by omega), agree6_get r1 r2 h 5 (by omega)]

/-- A lexicographic comparison decided inside a common prefix length is
unchanged by anything beyond that prefix. -/
theorem lexCmp_eq_of_take {α : Type} {cmp : α → α → Ordering}
    (hlin : IsLinearCmp cmp) :
    ∀ (n : Nat) (a b a' b' : List α), a.take n = a'.take n →
      b.take n = b'.take n → a.take n ≠ b.take n →
      lexCmp cmp a b = lexCmp cmp a' b' := by
  intro n
  induction n with
  | zero =>
    intro a b a' b' _ _ hne
    simp at hne
  | succ n ih =>
    intro a b a' b' haa hbb hne
    cases a with
    | nil =>
      have ha' : a' = [] := by
        cases a' with
        | nil => rfl
        | cons x t => rw [List.take_nil, List.take_succ_cons] at haa; cases haa
      subst ha'
      cases b with
      | nil =>
        have hb' : b' = [] := by
          cases b' with
          | nil => rfl
          | cons x t => rw [List.take_nil, List.take_succ_cons] at hbb; cases hbb
        subst hb'
        rfl
      | cons bb bt =>
        cases b' with
        | nil => rw [List.take_nil, List.take_succ_cons] at hbb; cases hbb
        | cons bb' bt' => rfl
    | cons aa at' =>
      cases a' with
      | nil => rw [List.take_nil, List.take_succ_cons] at haa; cases haa
      | cons aa' at2 =>
        rw [List.take_succ_cons, List.take_succ_cons] at haa
        injection haa with haa1 haa2
        subst haa1
        cases b with
        | nil =>
          have hb' : b' = [] := by
            cases b' with
            | nil => rfl
            | cons x t => rw [List.take_nil, List.take_succ_cons] at hbb; cases hbb
          subst hb'
          rfl
        | cons bb bt =>
          cases b' with
          | nil => rw [List.take_nil, List.take_succ_cons] at hbb; cases hbb
          | cons bb' bt' =>
            rw [List.take_succ_cons, List.take_succ_cons] at hbb
            injection hbb with hbb1 hbb2
            subst hbb1
            show (match cmp aa bb with
              | .eq => lexCmp cmp at' bt
              | o => o) =
              (match cmp aa bb with
              | .eq => lexCmp cmp at2 bt'
              | o => o)
            cases hc : cmp aa bb with
            | eq =>
              have heq := (hlin.eq_iff aa bb).mp hc
              subst heq
              simp only []
              apply ih
              · exact haa2
              · exact hbb2
              · intro hcon
                apply hne
                rw [List.take_succ_cons, List.take_succ_cons, hcon]
            | lt => rfl
            | gt => rfl

/-- A lexicographic comparison of lists whose heads already differ is the
head comparison. -/
theorem lexCmp_cons_ne {α : Type} {cmp : α → α → Ordering}
    (a b : α) (as bs : List α) (h : cmp a b ≠ .eq) :
    lexCmp cmp (a :: as) (b :: bs) = cmp a b := by
  show (match cmp a b with
    | .eq => lexCmp cmp as bs
    | o => o) = cmp a b
  cases hc : cmp a b with
  | eq => exact absurd hc h
  | lt => rfl
  | gt => rfl

/-- The invariants every produced group satisfies: nonempty, and every
row carries the group's category in field 5. -/
def GoodGroup (p : String × List Row) : Prop :=
  p.2 ≠ [] ∧ ∀ r ∈ p.2, r[5]? = some p.1

/-- The relation between the groupings of two trailing-field variants. -/
def groupAgree (p q : String × List Row) : Prop :=
  p.1 = q.1 ∧ List.Forall₂ agree6 p.2 q.2

/-- The sort comparison between groups of distinct categories is decided
by the first rows' first six fields, hence unchanged by trailing
fields. -/
theorem pyGroupLe_congr (a1 b1 a2 b2 : String × List Row)
    (ha : groupAgree a1 a2) (hb : groupAgree b1 b2)
    (hga : GoodGroup a1) (hgb : GoodGroup b1)
    (hne : a1.1 ≠ b1.1) :
    pyGroupLe a1 b1 = pyGroupLe a2 b2 := by
  unfold pyGroupLe
  suffices hs : pyRowsCmp a1.2 b1.2 = pyRowsCmp a2.2 b2.2 by rw [hs]
  rcases ha with ⟨hak, haf⟩
  rcases hb with ⟨hbk, hbf⟩
  cases h1 : a1.2 with
  | nil => exact absurd h1 hga.1
  | cons ra as =>
  cases h2 : b1.2 with
  | nil => exact absurd h2 hgb.1
  | cons rb bs =>
  rw [h1] at haf
  rw [h2] at hbf
  rcases List.forall₂_cons_left_iff.mp haf with ⟨ra', as', hra, hfas, ha2⟩
  rcases List.forall₂_cons_left_iff.mp hbf with ⟨rb', bs', hrb, hfbs, hb2⟩
  rw [ha2, hb2]
  have h5a : ra[5]? = some a1.1 := hga.2 ra (h1 ▸ List.mem_cons_self ra as)
  have h5b : rb[5]? = some b1.1 := hgb.2 rb (h2 ▸ List.mem_cons_self rb bs)
  have htne : ra.take 6 ≠ rb.take 6 := by
    intro hcon
    have := agree6_get ra rb hcon 5 (by omega)
    rw [h5a, h5b] at this
    injection this with this
    exact hne this
  have hcne : pyRowCmp ra rb ≠ .eq := by
    intro hcon
    have := (isLinearCmp_pyRowCmp.eq_iff ra rb).mp hcon
    exact htne (by rw [this])
  have hEqc : pyRowCmp ra rb = pyRowCmp ra' rb' :=
    lexCmp_eq_of_take isLinearCmp_pyStrCmp 6 ra rb ra' rb' hra hrb htne
  have hcne' : pyRowCmp ra' rb' ≠ .eq := fun hcon => hcne (hEqc.symm ▸ hcon)
  unfold pyRowsCmp
  rw [lexCmp_cons_ne ra rb as bs hcne, lexCmp_cons_ne ra' rb' as' bs' hcne']
  exact hEqc

/-- Membership via keys: `any` over the pairs is `any` over the keys. -/
theorem any_keys (acc : List (String × List Row)) (c : String) :
    acc.any (fun p => p.1 = c) = (keysOf acc).any (fun k => k = c) := by
  induction acc with
  | nil => rfl
  | cons p t ih => simp [keysOf, List.any_cons] at ih ⊢; rw [ih]

theorem keysOf_insertEntry_congr (acc1 acc2 : List (String × List Row))
    (c : String) (r1 r2 : Row) (hk : keysOf acc1 = keysOf acc2) :
    keysOf (insertEntry acc1 c r1) = keysOf (insertEntry acc2 c r2) := by
  rw [keysOf_insertEntry, keysOf_insertEntry, any_keys acc1 c, any_keys acc2 c, hk]

/-- Grouping two trailing-field variants: both fail identically, or both
succeed with the same category keys in the same order. -/
theorem groupAux_congr : ∀ (R1 R2 : List Row) (acc1 acc2 : List (String × List Row)),
    List.Forall₂ agree6 R1 R2 → keysOf acc1 = keysOf acc2 →
    (groupAux R1 acc1 = .error .indexError ∧ groupAux R2 acc2 = .error .indexError) ∨
    (∃ G1 G2, groupAux R1 acc1 = .ok G1 ∧ groupAux R2 acc2 = .ok G2 ∧
      keysOf G1 = keysOf G2) := by
  intro R1
  induction R1 with
  | nil =>
    intro R2 acc1 acc2 hrel hk
    cases hrel
    right
    exact ⟨acc1, acc2, rfl, rfl, hk⟩
  | cons r1 t1 ih =>
    intro R2 acc1 acc2 hrel hk
    cases hrel with
    | cons ha ht =>
      rename_i r2 t2
      simp only [groupAux, getItem]
      have h5 : r1[5]? = r2[5]? := agree6_get r1 r2 ha 5 (by omega)
      cases h5v : r1[5]? with
      | none =>
        have h5v' : r2[5]? = none := h5.symm.trans h5v
        rw [h5v']
        simp only [Bind.bind, Except.bind]
        left
        constructor <;> trivial
      | some cv =>
        have h5v' : r2[5]? = some cv := h5.symm.trans h5v
        rw [h5v']
        simp only [Bind.bind, Except.bind]
        exact ih t2 (insertEntry acc1 cv r1) (insertEntry acc2 cv r2) ht
          (keysOf_insertEntry_congr acc1 acc2 cv r1 r2 hk)

theorem filter_agree6_congr (c : String) :
    ∀ R1 R2, List.Forall₂ agree6 R1 R2 →
      List.Forall₂ agree6 (R1.filter (fun r => r[5]? == some c))
        (R2.filter (fun r => r[5]? == some c)) := by
  intro R1 R2 h
  induction h with
  | nil => exact List.Forall₂.nil
  | cons ha ht ih =>
    rename_i r1 r2 t1 t2
    rw [List.filter_cons, List.filter_cons]
    have hpred : (r1[5]? == some c) = (r2[5]? == some c) := by
      rw [agree6_get r1 r2 ha 5 (by omega)]
    rw [← hpred]
    by_cases hp : (r1[5]? == some c) = true
    · rw [if_pos hp, if_pos hp]
      exact List.Forall₂.cons ha ih
    · rw [if_neg hp, if_neg hp]
      exact ih

/-- Two members of a grouping with the same key are the same group. -/
theorem eq_of_same_key (G : List (String × List Row))
    (hnd : (keysOf G).Nodup) (p q : String × List Row)
    (hp : p ∈ G) (hq : q ∈ G) (h : p.1 = q.1) : p = q := by
  have h1 := mem_eq_catEntries G p hnd hp
  have h2 := mem_eq_catEntries G q hnd hq
  have h3 : p.2 = q.2 := by rw [h1, h2, h]
  cases p
  cases q
  simp_all

/-- The groupings of two trailing-field variants are related pairwise:
same key, entry lists that agree on their first six fields. -/
theorem groupAgree_of_keys_eq (R1 R2 : List Row)
    (G1 G2 : List (String × List Row))
    (hrel : List.Forall₂ agree6 R1 R2)
    (h1 : groupAux R1 [] = .ok G1) (h2 : groupAux R2 [] = .ok G2)
    (hk : keysOf G1 = keysOf G2) :
    List.Forall₂ groupAgree G1 G2 := by
  have hnd1 : (keysOf G1).Nodup := groupAux_nodup R1 [] G1 h1 (by simp [keysOf])
  have hnd2 : (keysOf G2).Nodup := groupAux_nodup R2 [] G2 h2 (by simp [keysOf])
  rw [List.forall₂_iff_get]
  have hlen : G1.length = G2.length := by
    have hc := congrArg List.length hk
    simpa [keysOf] using hc
  refine ⟨hlen, ?_⟩
  intro i hi1 hi2
  have hkey : (G1.get ⟨i, hi1⟩).1 = (G2.get ⟨i, hi2⟩).1 := by
    have hki : (keysOf G1)[i]? = (keysOf G2)[i]? := by rw [hk]
    rw [keysOf, keysOf, List.getElem?_map, List.getElem?_map,
      List.getElem?_eq_getElem hi1, List.getElem?_eq_getElem hi2] at hki
    simp at hki
    simpa [List.get_eq_getElem] using hki
  refine ⟨hkey, ?_⟩
  have hmem1 : G1.get ⟨i, hi1⟩ ∈ G1 := List.get_mem G1 i hi1
  have hmem2 : G2.get ⟨i, hi2⟩ ∈ G2 := List.get_mem G2 i hi2
  have he1 : (G1.get ⟨i, hi1⟩).2 =
      R1.filter (fun r => r[5]? == some (G1.get ⟨i, hi1⟩).1) := by
    rw [mem_eq_catEntries G1 _ hnd1 hmem1,
      groupAux_catEntries R1 [] G1 h1 _]
    simp [catEntries]
  have he2 : (G2.get ⟨i, hi2⟩).2 =
      R2.filter (fun r => r[5]? == some (G2.get ⟨i, hi2⟩).1) := by
    rw [mem_eq_catEntries G2 _ hnd2 hmem2,
      groupAux_catEntries R2 [] G2 h2 _]
    simp [catEntries]
  rw [he1, he2, ← hkey]
  exact filter_agree6_congr _ R1 R2 hrel

/-- Stable insertion respects a pairwise relation when the comparison
cannot distinguish related elements. -/
theorem insertSorted_congr {α : Type} (le : α → α → Bool) (ρ : α → α → Prop)
    (a1 a2 : α) (ha : ρ a1 a2) :
    ∀ (l1 l2 : List α), List.Forall₂ ρ l1 l2 →
      (∀ b1 b2, b1 ∈ l1 → b2 ∈ l2 → ρ b1 b2 → le a1 b1 = le a2 b2) →
      List.Forall₂ ρ (insertSorted le a1 l1) (insertSorted le a2 l2) := by
  intro l1 l2 hrel
  induction hrel with
  | nil =>
    intro _
    exact List.Forall₂.cons ha List.Forall₂.nil
  | cons hb ht ih =>
    rename_i b1 b2 t1 t2
    intro hle
    unfold insertSorted
    have hlb : le a1 b1 = le a2 b2 :=
      hle b1 b2 (List.mem_cons_self b1 t1) (List.mem_cons_self b2 t2) hb
    by_cases hc : le a1 b1 = true
    · rw [if_pos hc, if_pos (hlb ▸ hc)]
      exact List.Forall₂.cons ha (List.Forall₂.cons hb ht)
    · rw [if_neg hc, if_neg (fun hcon => hc (hlb.trans hcon))]
      exact List.Forall₂.cons hb (ih (fun x1 x2 hx1 hx2 hρ =>
        hle x1 x2 (List.mem_cons_of_mem b1 hx1) (List.mem_cons_of_mem b2 hx2) hρ))

/-- The stable sort respects a pairwise relation when the comparison
cannot distinguish related elements of the inputs. -/
theorem pySorted_congr {α : Type} (le : α → α → Bool) (ρ : α → α → Prop) :
    ∀ (l1 l2 : List α), List.Forall₂ ρ l1 l2 →
      (∀ a1 a2 b1 b2, a1 ∈ l1 → a2 ∈ l2 → b1 ∈ l1 → b2 ∈ l2 →
        ρ a1 a2 → ρ b1 b2 → le a1 b1 = le a2 b2) →
      List.Forall₂ ρ (pySorted le l1) (pySorted le l2) := by
  intro l1 l2 hrel
  induction hrel with
  | nil =>
    intro _
    exact List.Forall₂.nil
  | cons hb ht ih =>
    rename_i a1 a2 t1 t2
    intro hle
    show List.Forall₂ ρ (insertSorted le a1 (pySorted le t1))
      (insertSorted le a2 (pySorted le t2))
    apply insertSorted_congr le ρ a1 a2 hb (pySorted le t1) (pySorted le t2)
    · exact ih (fun x1 x2 y1 y2 hx1 hx2 hy1 hy2 hρx hρy =>
        hle x1 x2 y1 y2 (List.mem_cons_of_mem a1 hx1) (List.mem_cons_of_mem a2 hx2)
          (List.mem_cons_of_mem a1 hy1) (List.mem_cons_of_mem a2 hy2) hρx hρy)
    · intro b1 b2 hb1 hb2 hρ
      exact hle a1 a2 b1 b2 (List.mem_cons_self a1 t1) (List.mem_cons_self a2 t2)
        (List.mem_cons_of_mem a1 ((pySorted_perm le t1).mem_iff.mp hb1))
        (List.mem_cons_of_mem a2 ((pySorted_perm le t2).mem_iff.mp hb2)) hb hρ

theorem addEntries_congr (clock : Nat → String) :
    ∀ (rs1 rs2 : List Row), List.Forall₂ agree6 rs1 rs2 →
      ∀ i, addEntries clock i rs1 = addEntries clock i rs2 := by
  intro rs1 rs2 h
  induction h with
  | nil => intro i; rfl
  | cons ha ht ih =>
    rename_i r1 r2 t1 t2
    intro i
    simp only [addEntries]
    rw [add_entry_congr (clock i) r1 r2 ha, ih (i + 1)]

theorem add_category_congr (clock : Nat → String) (i : Nat)
    (g1 g2 : String × List Row) (h : groupAgree g1 g2) :
    add_category clock i g1 = add_category clock i g2 := by
  unfold add_category
  rw [addEntries_congr clock g1.2 g2.2 h.2 i, h.1]

theorem addCategories_congr (clock : Nat → String) :
    ∀ (gs1 gs2 : List (String × List Row)), List.Forall₂ groupAgree gs1 gs2 →
      ∀ i, addCategories clock i gs1 = addCategories clock i gs2 := by
  intro gs1 gs2 h
  induction h with
  | nil => intro i; rfl
  | cons hg ht ih =>
    rename_i g1 g2 t1 t2
    intro i
    simp only [addCategories]
    rw [add_category_congr clock i g1 g2 hg,
      show g1.2.length = g2.2.length from hg.2.length_eq, ih (i + g2.2.length)]

theorem generate_congr (clock : Nat → String)
    (gs1 gs2 : List (String × List Row)) (h : List.Forall₂ groupAgree gs1 gs2) :
    generate_keepass_xml_document clock gs1 =
      generate_keepass_xml_document clock gs2 := by
  unfold generate_keepass_xml_document
  rw [addCategories_congr clock gs1 gs2 h 0]

/-- C10: for any two parsed rows with at least six fields agreeing on
indices 0 through 5, `add_entry` builds identical entry elements for the
same timestamp (it reads only those indices, so the hypothesis on the
lengths is not even needed); and pointwise agreement on the first six
fields makes the whole document builder output identical documents: the
trailing fields at indices 6, 7 and 8 — including the true last-access
timestamp at index 6 — never influence the output document, not even
through the entry-list sort key, whose comparisons are always decided at
a field index at most 5. -/
theorem c10_trailing_fields_irrelevant (clock : Nat → String) (ts : String)
    (r1 r2 : Row) (R1 R2 : List Row) :
    (r1.take 6 = r2.take 6 → add_entry ts r1 = add_entry ts r2) ∧
    (List.Forall₂ agree6 R1 R2 →
      (sort_entries_by_category R1).bind (generate_keepass_xml_document clock) =
      (sort_entries_by_category R2).bind (generate_keepass_xml_document clock)) := by
  constructor
  · exact add_entry_congr ts r1 r2
  · intro hrel
    rcases groupAux_congr R1 R2 [] [] hrel rfl with ⟨he1, he2⟩ | ⟨G1, G2, h1, h2, hk⟩
    · unfold sort_entries_by_category
      rw [he1, he2]
    · have hrelG := groupAgree_of_keys_eq R1 R2 G1 G2 hrel h1 h2 hk
      have hnd1 : (keysOf G1).Nodup := groupAux_nodup R1 [] G1 h1 (by simp [keysOf])
      have hnd2 : (keysOf G2).Nodup := groupAux_nodup R2 [] G2 h2 (by simp [keysOf])
      have hgg1 : ∀ p ∈ G1, GoodGroup p := fun p hp =>
        ⟨groupAux_nonempty R1 [] G1 h1 (by simp) p hp,
         groupAux_field5 R1 [] G1 h1 (by simp) p hp⟩
      have hsorted : List.Forall₂ groupAgree
          (pySorted pyGroupLe G1) (pySorted pyGroupLe G2) := by
        apply pySorted_congr pyGroupLe groupAgree G1 G2 hrelG
        intro a1 a2 b1 b2 ha1 ha2 hb1 hb2 hρa hρb
        by_cases hkey : a1.1 = b1.1
        · have heq1 : a1 = b1 := eq_of_same_key G1 hnd1 a1 b1 ha1 hb1 hkey
          have hkey2 : a2.1 = b2.1 := by rw [← hρa.1, ← hρb.1, hkey]
          have heq2 : a2 = b2 := eq_of_same_key G2 hnd2 a2 b2 ha2 hb2 hkey2
          subst heq1
          subst heq2
          unfold pyGroupLe
          rw [isLinearCmp_pyRowsCmp.cmp_refl a1.2, isLinearCmp_pyRowsCmp.cmp_refl a2.2]
        · exact pyGroupLe_congr a1 b1 a2 b2 hρa hρb (hgg1 a1 ha1) (hgg1 b1 hb1) hkey
      unfold sort_entries_by_category
      rw [h1, h2]
      simp only [Bind.bind, Except.bind]
      exact generate_congr clock _ _ hsorted

def c10Rows1 : List Row :=
  [["http://a.com", "u1", "p1", "n1", "t1", "Work", "1111", "6", "0"],
   ["http://b.org", "u2", "p2", "n2", "t2", "Home", "2222", "7", "1"]]

def c10Rows2 : List Row :=
  [["http://a.com", "u1", "p1", "n1", "t1", "Work", "9999", "0", "1"],
   ["http://b.org", "u2", "p2", "n2", "t2", "Home"]]

/-- Witness for C10: two row lists differing only in trailing fields
produce equal documents. -/
theorem c10_trailing_fields_irrelevant_witness :
    (List.take 6 ["x", "a", "b", "c", "d", "Work", "p"] =
        List.take 6 ["x", "a", "b", "c", "d", "Work"] →
      add_entry "T" ["x", "a", "b", "c", "d", "Work", "p"] =
        add_entry "T" ["x", "a", "b", "c", "d", "Work"]) ∧
    (List.Forall₂ agree6 c10Rows1 c10Rows2 →
      (sort_entries_by_category c10Rows1).bind
          (generate_keepass_xml_document (fun _ => "T")) =
        (sort_entries_by_category c10Rows2).bind
          (generate_keepass_xml_document (fun _ => "T"))) :=
  c10_trailing_fields_irrelevant (fun _ => "T") "T"
    ["x", "a", "b", "c", "d", "Work", "p"] ["x", "a", "b", "c", "d", "Work"]
    c10Rows1 c10Rows2

end LP2K
